import Mathlib

/-!
Verification of the region (lifetime) inference core
(`src/librustc/middle/typeck/infer/region_inference.rs`).

The data model and operations below are a shallow embedding of that file:
pure functions become Lean functions, the mutable `RegionVarBindings`
struct becomes explicit state passing, and operations that can hit a
`span_bug` / failed `assert!` (fatal compiler bugs) return `Option`,
with `none` denoting the bug signal.  The scope-tree oracle
(`ty::RegionMaps`) and the origin tokens are external collaborators and
are modelled as parameters / opaque numerals.
-/

set_option maxHeartbeats 1000000

namespace RegionInference

/-- Region variable ids (`RegionVid`): dense non-negative indices. -/
abbrev RegionVid := Nat

/-- Lexical scope ids (`ast::node_id`). -/
abbrev NodeId := Nat

/-- Opaque origin token for a region variable (`RegionVariableOrigin`):
used only for diagnostics, so modelled as a numeral. -/
abbrev RegionVariableOrigin := Nat

/-- Opaque origin token for a subregion constraint (`SubregionOrigin`). -/
abbrev SubregionOrigin := Nat

/-- `infer::MiscVariable(origin.span())`: the variable origin synthesized by
`combine_vars` from a constraint origin. -/
def MiscVariable (o : SubregionOrigin) : RegionVariableOrigin := o

/-- Modelled from the spec: bound-region names (`ty::bound_region` lives
outside `src/`).  The spec needs named bound regions appearing in inputs and
the `br_fresh(k)` names minted by `new_bound`. -/
inductive BoundRegion where
  | br_named (id : Nat)
  | br_fresh (idx : Nat)
deriving DecidableEq, Repr

/-- Modelled from the spec: a free (function-parameter) region
(`ty::FreeRegion` lives outside `src/`): it carries a scope id `scope_id`
and a stable identity tag used for canonical ordering. -/
structure FreeRegion where
  scope_id : NodeId
  tag : Nat
deriving DecidableEq, Repr

/-- Lifetime values (`ty::Region`); the two `re_infer` variants
(`ReVar`, `ReSkolemized`) are flattened into constructors. -/
inductive Region where
  | re_static
  | re_empty
  | re_scope (id : NodeId)
  | re_free (fr : FreeRegion)
  | re_var (vid : RegionVid)
  | re_skolemized (k : Nat) (br : BoundRegion)
  | re_bound (br : BoundRegion)
deriving DecidableEq, Repr

/-- Is this region an inference variable (`re_infer(ReVar _)`)? -/
def Region.isVar : Region → Bool
  | .re_var _ => true
  | _ => false

/-- Is this region a bound region (`re_bound _`)? -/
def Region.isBound : Region → Bool
  | .re_bound _ => true
  | _ => false

/-- Modelled from the spec: the scope-tree oracle (`ty::RegionMaps` lives
outside `src/`).  `nearest_common_ancestor` answers ancestor queries on the
scope tree, `sub_free_region` is the sub-free-region predicate, and
`is_subregion_of` is the outlives relation `sub <= sup`. -/
structure RegionMaps where
  nearest_common_ancestor : NodeId → NodeId → Option NodeId
  sub_free_region : FreeRegion → FreeRegion → Bool
  is_subregion_of : Region → Region → Bool

/-- The region-overlap failure (`ty::terr_regions_no_overlap`). -/
inductive TypeErr where
  | terr_regions_no_overlap (a b : Region)
deriving DecidableEq, Repr

/-- `cres<Region>`: result of a fallible region computation. -/
inductive CRes where
  | ok (r : Region)
  | err (e : TypeErr)
deriving DecidableEq, Repr

/-- Three-way comparison on `Nat` used for canonical ordering. -/
def natCmp (a b : Nat) : Ordering :=
  if a < b then .lt else if b < a then .gt else .eq

/-- Canonical three-way comparison of free regions (`FreeRegion::cmp`):
lexicographic on the scope id and the identity tag. -/
def frCmp (a b : FreeRegion) : Ordering :=
  match natCmp a.scope_id b.scope_id with
  | .eq => natCmp a.tag b.tag
  | o => o

/-- `lub_free_regions`: LUB of two free regions, canonicalizing the
argument order via `frCmp` so swapped arguments give identical output. -/
def lub_free_regions (rm : RegionMaps) (a b : FreeRegion) : Region :=
  let helper := fun (x y : FreeRegion) =>
    if rm.sub_free_region x y then Region.re_free y
    else if rm.sub_free_region y x then Region.re_free x
    else Region.re_static
  match frCmp a b with
  | .lt => helper a b
  | .gt => helper b a
  | .eq => Region.re_free a

/-- `lub_concrete_regions`: LUB over concrete lifetimes.  `none` models the
`span_bug` hit when an argument is an inference variable. -/
def lub_concrete_regions (rm : RegionMaps) (a b : Region) : Option Region :=
  match a, b with
  | .re_static, _ | _, .re_static => some .re_static
  | .re_empty, r | r, .re_empty => some r
  | .re_var _, _ | _, .re_var _ => none
  | .re_free fr, .re_scope s_id | .re_scope s_id, .re_free fr =>
    match rm.nearest_common_ancestor fr.scope_id s_id with
    | some r_id =>
      if r_id = fr.scope_id then some (.re_free fr) else some .re_static
    | none => some .re_static
  | .re_scope a_id, .re_scope b_id =>
    match rm.nearest_common_ancestor a_id b_id with
    | some r_id => some (.re_scope r_id)
    | none => some .re_static
  | .re_free a_fr, .re_free b_fr => some (lub_free_regions rm a_fr b_fr)
  | a, b => some (if a = b then a else .re_static)

/-- `intersect_scopes`: intersection of two scopes; fails with
`terr_regions_no_overlap(region_a, region_b)` when neither scope is an
ancestor of the other. -/
def intersect_scopes (rm : RegionMaps) (region_a region_b : Region)
    (scope_a scope_b : NodeId) : CRes :=
  match rm.nearest_common_ancestor scope_a scope_b with
  | some r_id =>
    if scope_a = r_id then .ok (.re_scope scope_b)
    else if scope_b = r_id then .ok (.re_scope scope_a)
    else .err (.terr_regions_no_overlap region_a region_b)
  | none => .err (.terr_regions_no_overlap region_a region_b)

/-- `glb_free_regions`: GLB of two free regions, canonicalized via `frCmp`;
falls back to scope intersection when neither sub-free relation holds. -/
def glb_free_regions (rm : RegionMaps) (a b : FreeRegion) : CRes :=
  let helper := fun (x y : FreeRegion) =>
    if rm.sub_free_region x y then CRes.ok (.re_free x)
    else if rm.sub_free_region y x then CRes.ok (.re_free y)
    else intersect_scopes rm (.re_free x) (.re_free y) x.scope_id y.scope_id
  match frCmp a b with
  | .lt => helper a b
  | .gt => helper b a
  | .eq => CRes.ok (.re_free a)

/-- `glb_concrete_regions`: GLB over concrete lifetimes; `none` models the
`span_bug` on a variable argument.  Note the error payloads carry the
original arguments in the order the source writes them
(`terr_regions_no_overlap(b, a)` for the free/scope and catch-all arms). -/
def glb_concrete_regions (rm : RegionMaps) (a b : Region) : Option CRes :=
  match a, b with
  | .re_static, r | r, .re_static => some (.ok r)
  | .re_empty, _ | _, .re_empty => some (.ok .re_empty)
  | .re_var _, _ | _, .re_var _ => none
  | .re_free fr, .re_scope s_id =>
    match rm.nearest_common_ancestor fr.scope_id s_id with
    | some r_id =>
      if r_id = fr.scope_id then some (.ok (.re_scope s_id))
      else some (.err (.terr_regions_no_overlap (.re_scope s_id) (.re_free fr)))
    | none => some (.err (.terr_regions_no_overlap (.re_scope s_id) (.re_free fr)))
  | .re_scope s_id, .re_free fr =>
    match rm.nearest_common_ancestor fr.scope_id s_id with
    | some r_id =>
      if r_id = fr.scope_id then some (.ok (.re_scope s_id))
      else some (.err (.terr_regions_no_overlap (.re_free fr) (.re_scope s_id)))
    | none => some (.err (.terr_regions_no_overlap (.re_free fr) (.re_scope s_id)))
  | .re_scope a_id, .re_scope b_id =>
    some (intersect_scopes rm (.re_scope a_id) (.re_scope b_id) a_id b_id)
  | .re_free a_fr, .re_free b_fr => some (glb_free_regions rm a_fr b_fr)
  | a, b =>
    some (if a = b then .ok a else .err (.terr_regions_no_overlap b a))

/-! ## The constraint store -/

/-- The four constraint shapes.  (The source's `enum Constraint` declaration
lists three, but `ConstrainRegSubReg` is used as a fourth variant throughout
the file, so it is included here.) -/
inductive Constraint where
  | ConstrainVarSubVar (a b : RegionVid)
  | ConstrainRegSubVar (r : Region) (b : RegionVid)
  | ConstrainVarSubReg (a : RegionVid) (r : Region)
  | ConstrainRegSubReg (r s : Region)
deriving DecidableEq, Repr

/-- The key of the LUB/GLB memo tables (`struct TwoRegions`): the ordered
pair of input regions. -/
structure TwoRegions where
  a : Region
  b : Region
deriving DecidableEq, Repr

/-- Which memo table a combination targets (`enum CombineMapType`). -/
inductive CombineMapType where
  | Lub
  | Glb
deriving DecidableEq, Repr

/-- Undo-log entries (`enum UndoLogEntry`). -/
inductive UndoLogEntry where
  | Snapshot
  | AddVar (vid : RegionVid)
  | AddConstraint (c : Constraint)
  | AddCombination (t : CombineMapType) (tr : TwoRegions)
deriving DecidableEq, Repr

/-- Per-variable solver result (`enum GraphNodeValue`). -/
inductive GraphNodeValue where
  | NoValue
  | Value (r : Region)
  | ErrorValue
deriving DecidableEq, Repr

/-- Association-list lookup, standing in for `HashMap::find`. -/
def alistLookup {α β : Type} [DecidableEq α] (m : List (α × β)) (k : α) :
    Option β :=
  match m with
  | [] => none
  | p :: rest => if p.1 = k then some p.2 else alistLookup rest k

/-- Does the map contain the key (`HashMap::contains_key`)? -/
def alistContains {α β : Type} [DecidableEq α] (m : List (α × β)) (k : α) :
    Bool :=
  (alistLookup m k).isSome

/-- Remove a key (`HashMap::remove`). -/
def alistRemove {α β : Type} [DecidableEq α] (m : List (α × β)) (k : α) :
    List (α × β) :=
  m.filter (fun p => decide (p.1 ≠ k))

/-- `HashMap::insert`: replaces the value and answers `false` when the key
was present, appends the binding and answers `true` when it was not. -/
def alistInsert {α β : Type} [DecidableEq α] (m : List (α × β)) (k : α)
    (v : β) : List (α × β) × Bool :=
  if alistContains m k then
    (m.map (fun p => if p.1 = k then (k, v) else p), false)
  else (m ++ [(k, v)], true)

/-- The keys of an association list. -/
def alistKeys {α β : Type} (m : List (α × β)) : List α := m.map Prod.fst

/-- The constraint store (`struct RegionVarBindings`).  The two hash maps
become association lists with distinct keys; the undo log keeps the most
recently pushed entry at the head; `values` is the write-once cell holding
the inference results (`none` = still empty). -/
structure RegionVarBindings where
  var_origins : List RegionVariableOrigin
  constraints : List (Constraint × SubregionOrigin)
  lubs : List (TwoRegions × RegionVid)
  glbs : List (TwoRegions × RegionVid)
  skolemization_count : Nat
  bound_count : Nat
  undo_log : List UndoLogEntry
  values : Option (List GraphNodeValue)
deriving DecidableEq

/-- The empty store (`fn RegionVarBindings`). -/
def emptyBindings : RegionVarBindings :=
  { var_origins := [], constraints := [], lubs := [], glbs := []
    skolemization_count := 0, bound_count := 0, undo_log := [], values := none }

namespace RegionVarBindings

/-- `in_snapshot`: the undo log is non-empty. -/
def in_snapshot (s : RegionVarBindings) : Bool :=
  decide (s.undo_log.length > 0)

/-- `start_snapshot`: inside a snapshot, return the current log length;
otherwise push the `Snapshot` marker and return 0. -/
def start_snapshot (s : RegionVarBindings) : Nat × RegionVarBindings :=
  if s.in_snapshot then (s.undo_log.length, s)
  else (0, { s with undo_log := [UndoLogEntry.Snapshot] })

/-- `commit`: discard the whole undo log. -/
def commit (s : RegionVarBindings) : RegionVarBindings :=
  { s with undo_log := [] }

/-- Reverse the effect of one popped undo-log entry (the body of the
`match undo_item` in `rollback_to`).  The `AddVar` arm pops the most recent
variable (the source asserts `var_origins.len() == vid + 1` there). -/
def undoEntry (s : RegionVarBindings) (e : UndoLogEntry) : RegionVarBindings :=
  match e with
  | .Snapshot => s
  | .AddVar _ => { s with var_origins := s.var_origins.dropLast }
  | .AddConstraint c => { s with constraints := alistRemove s.constraints c }
  | .AddCombination .Glb tr => { s with glbs := alistRemove s.glbs tr }
  | .AddCombination .Lub tr => { s with lubs := alistRemove s.lubs tr }

/-- `rollback_to(snapshot)`: pop and undo entries while the log is longer
than `snapshot`. -/
def rollback_to (snapshot : Nat) (s : RegionVarBindings) : RegionVarBindings :=
  let k := s.undo_log.length - snapshot
  { (s.undo_log.take k).foldl undoEntry s with undo_log := s.undo_log.drop k }

/-- `num_vars`. -/
def num_vars (s : RegionVarBindings) : Nat := s.var_origins.length

/-- `new_region_var`: append the origin, return the next dense index, and
log `AddVar` iff inside a snapshot.  (Note: the source performs no
"not yet solved" assertion here.) -/
def new_region_var (s : RegionVarBindings) (origin : RegionVariableOrigin) :
    RegionVid × RegionVarBindings :=
  let id := s.num_vars
  let s1 := { s with var_origins := s.var_origins ++ [origin] }
  let s2 := if s1.in_snapshot
    then { s1 with undo_log := UndoLogEntry.AddVar id :: s1.undo_log }
    else s1
  (id, s2)

/-- `new_skolemized`: mint `ReSkolemized(skolemization_count, br)` and bump
the counter.  Writes no undo-log entry and performs no assertion. -/
def new_skolemized (s : RegionVarBindings) (br : BoundRegion) :
    Region × RegionVarBindings :=
  let sc := s.skolemization_count
  (.re_skolemized sc br, { s with skolemization_count := sc + 1 })

/-- `new_bound`: mint `re_bound(br_fresh(bound_count))` and bump the
counter.  Writes no undo-log entry and performs no assertion. -/
def new_bound (s : RegionVarBindings) : Region × RegionVarBindings :=
  let sc := s.bound_count
  (.re_bound (.br_fresh sc), { s with bound_count := sc + 1 })

/-- `add_constraint`: asserts `values.is_empty()` (`none` = the assertion
fired), inserts into the constraint map, and logs `AddConstraint` iff the
insertion was fresh and a snapshot is open. -/
def add_constraint (s : RegionVarBindings) (constraint : Constraint)
    (origin : SubregionOrigin) : Option RegionVarBindings :=
  if s.values ≠ none then none
  else
    let (m, fresh) := alistInsert s.constraints constraint origin
    let s1 := { s with constraints := m }
    some (if fresh && s1.in_snapshot
      then { s1 with undo_log := UndoLogEntry.AddConstraint constraint :: s1.undo_log }
      else s1)

/-- `make_subregion`: asserts "not yet solved", then dispatches on the
shapes of `sub` and `sup` in the source's arm order; the two `re_bound`
arms model the `span_bug` calls as `none`. -/
def make_subregion (s : RegionVarBindings) (origin : SubregionOrigin)
    (sub sup : Region) : Option RegionVarBindings :=
  if s.values ≠ none then none
  else
    match sub, sup with
    | .re_var sub_id, .re_var sup_id =>
      s.add_constraint (.ConstrainVarSubVar sub_id sup_id) origin
    | r, .re_var sup_id =>
      s.add_constraint (.ConstrainRegSubVar r sup_id) origin
    | .re_var sub_id, r =>
      s.add_constraint (.ConstrainVarSubReg sub_id r) origin
    | .re_bound _, _ => none
    | _, .re_bound _ => none
    | _, _ =>
      s.add_constraint (.ConstrainRegSubReg sub sup) origin

/-- `combine_map(t)`: read access to the selected memo table. -/
def combine_map_get (s : RegionVarBindings) (t : CombineMapType) :
    List (TwoRegions × RegionVid) :=
  match t with
  | .Glb => s.glbs
  | .Lub => s.lubs

/-- `combine_map(t)`: write access to the selected memo table. -/
def combine_map_set (s : RegionVarBindings) (t : CombineMapType)
    (m : List (TwoRegions × RegionVid)) : RegionVarBindings :=
  match t with
  | .Glb => { s with glbs := m }
  | .Lub => { s with lubs := m }

/-- `combine_vars(t, a, b, origin, relate)`: memo lookup on the ordered pair
`TwoRegions {a, b}`; on a miss, synthesize a fresh variable, record it in
the memo (logging `AddCombination` inside a snapshot), and relate both
inputs to it.  `none` propagates a bug signalled by `relate`. -/
def combine_vars (s : RegionVarBindings) (t : CombineMapType) (a b : Region)
    (origin : SubregionOrigin)
    (relate : RegionVarBindings → Region → Region →
      Option RegionVarBindings) :
    Option (Region × RegionVarBindings) :=
  let vars : TwoRegions := { a := a, b := b }
  match alistLookup (s.combine_map_get t) vars with
  | some c => some (.re_var c, s)
  | none =>
    let (c, s1) := s.new_region_var (MiscVariable origin)
    let s2 := s1.combine_map_set t (s1.combine_map_get t ++ [(vars, c)])
    let s3 := if s2.in_snapshot
      then { s2 with undo_log := UndoLogEntry.AddCombination t vars :: s2.undo_log }
      else s2
    match relate s3 a (.re_var c) with
    | none => none
    | some s4 =>
      match relate s4 b (.re_var c) with
      | none => none
      | some s5 => some (.re_var c, s5)

/-- The `relate` closure passed by `lub_regions` (`old_r <= new_r`) and by
`glb_regions` (`new_r <= old_r`). -/
def relateFor (t : CombineMapType) (origin : SubregionOrigin)
    (s : RegionVarBindings) (old_r new_r : Region) :
    Option RegionVarBindings :=
  match t with
  | .Lub => s.make_subregion origin old_r new_r
  | .Glb => s.make_subregion origin new_r old_r

/-- `lub_regions`: asserts "not yet solved"; `re_static` short-circuits;
otherwise `combine_vars(Lub, ...)`. -/
def lub_regions (s : RegionVarBindings) (origin : SubregionOrigin)
    (a b : Region) : Option (Region × RegionVarBindings) :=
  if s.values ≠ none then none
  else
    match a, b with
    | .re_static, _ | _, .re_static => some (.re_static, s)
    | _, _ => s.combine_vars .Lub a b origin (relateFor .Lub origin)

/-- `glb_regions`: asserts "not yet solved"; `re_static` is discarded;
otherwise `combine_vars(Glb, ...)`. -/
def glb_regions (s : RegionVarBindings) (origin : SubregionOrigin)
    (a b : Region) : Option (Region × RegionVarBindings) :=
  if s.values ≠ none then none
  else
    match a, b with
    | .re_static, r | r, .re_static => some (r, s)
    | _, _ => s.combine_vars .Glb a b origin (relateFor .Glb origin)

/-- `resolve_var`: a `span_bug` (`none`) before the values have been
computed; afterwards `Value(r)` resolves to `r`, `NoValue` to `re_empty`
and `ErrorValue` to `re_static`. -/
def resolve_var (s : RegionVarBindings) (rid : RegionVid) : Option Region :=
  match s.values with
  | none => none
  | some vs =>
    match vs.getD rid .NoValue with
    | .Value r => some r
    | .NoValue => some .re_empty
    | .ErrorValue => some .re_static

end RegionVarBindings

/-! ## The taint walker -/

/-- The pair of regions a logged constraint relates, with variable
endpoints lifted to `re_var` values (the `match self.undo_log[undo_index]`
in `tainted`); `none` for non-constraint entries. -/
def constraintEndpoints : UndoLogEntry → Option (Region × Region)
  | .AddConstraint (.ConstrainVarSubVar a b) => some (.re_var a, .re_var b)
  | .AddConstraint (.ConstrainRegSubVar a b) => some (a, .re_var b)
  | .AddConstraint (.ConstrainVarSubReg a b) => some (.re_var a, b)
  | .AddConstraint (.ConstrainRegSubReg a b) => some (a, b)
  | _ => none

/-- `consider_adding_edge`: if `r = r1` and `r2` is not yet in the result
set, append `r2`. -/
def consider_adding_edge (result_set : List Region) (r r1 r2 : Region) :
    List Region :=
  if r = r1 then
    if result_set.any (fun x => decide (x = r2)) then result_set
    else result_set ++ [r2]
  else result_set

/-- The inner scan of `tainted`: walk the relevant undo-log entries and,
for each constraint relating `r` to another region, add that region (both
orientations, i.e. the symmetric closure). -/
def taintedScan (entries : List UndoLogEntry) (result_set : List Region)
    (r : Region) : List Region :=
  entries.foldl (fun rs e =>
    match constraintEndpoints e with
    | none => rs
    | some (r1, r2) =>
      consider_adding_edge (consider_adding_edge rs r r1 r2) r r2 r1)
    result_set

/-- The worklist loop of `tainted`, with explicit fuel (`none` means the
fuel ran out before the worklist drained). -/
def taintedLoop (entries : List UndoLogEntry) :
    Nat → List Region → Nat → Option (List Region)
  | 0, rs, i => if i < rs.length then none else some rs
  | fuel + 1, rs, i =>
    if h : i < rs.length then
      taintedLoop entries fuel (taintedScan entries rs (rs.get ⟨i, h⟩)) (i + 1)
    else some rs

/-- The undo-log entries at (Rust vector) indices `>= snapshot`, oldest
first: with the newest entry at the head of our list these are the first
`len - snapshot` entries, reversed. -/
def relevantEntries (s : RegionVarBindings) (snapshot : Nat) :
    List UndoLogEntry :=
  (s.undo_log.take (s.undo_log.length - snapshot)).reverse

/-- `tainted(snapshot, r0)`: all regions related to `r0` in any way by
constraints added since `snapshot`; `r0` itself is the first entry. -/
def tainted (fuel : Nat) (s : RegionVarBindings) (snapshot : Nat)
    (r0 : Region) : Option (List Region) :=
  taintedLoop (relevantEntries s snapshot) fuel [r0] 0

/-! ## The solver: graph construction -/

/-- Edge directions (`enum Direction`); used to index the intrusive
head/next pairs. -/
inductive Direction where
  | Incoming
  | Outgoing
deriving DecidableEq, Repr

/-- Variable classification during solving (`enum Classification`). -/
inductive Classification where
  | Expanding
  | Contracting
deriving DecidableEq, Repr

/-- A solver graph node (`struct GraphNode`); `head_edge` holds the
(incoming, outgoing) intrusive list heads, `none` standing for the
`uint::max_value` sentinel. -/
structure GraphNode where
  origin : RegionVariableOrigin
  classification : Classification
  value : GraphNodeValue
  head_edge : Option Nat × Option Nat
deriving DecidableEq, Repr

/-- A solver graph edge (`struct GraphEdge`). -/
structure GraphEdge where
  next_edge : Option Nat × Option Nat
  constraint : Constraint
deriving DecidableEq, Repr

/-- The solver graph (`struct Graph`). -/
structure Graph where
  nodes : List GraphNode
  edges : List GraphEdge
deriving DecidableEq, Repr

/-- Read the component of a head/next pair selected by a direction. -/
def dirGet (p : Option Nat × Option Nat) : Direction → Option Nat
  | .Incoming => p.1
  | .Outgoing => p.2

/-- Write the component of a head/next pair selected by a direction. -/
def dirSet (p : Option Nat × Option Nat) :
    Direction → Option Nat → Option Nat × Option Nat
  | .Incoming, v => (v, p.2)
  | .Outgoing, v => (p.1, v)

/-- Out-of-range default for node reads (indices are always in range in
the reachable states; the source would index-panic). -/
def defaultGraphNode : GraphNode :=
  { origin := 0, classification := .Contracting, value := .NoValue,
    head_edge := (none, none) }

/-- Out-of-range default for edge reads. -/
def defaultGraphEdge : GraphEdge :=
  { next_edge := (none, none),
    constraint := .ConstrainRegSubReg .re_static .re_static }

/-- The value currently recorded for variable `v` in a node vector. -/
def nodeValue (nodes : List GraphNode) (v : Nat) : GraphNodeValue :=
  (nodes.getD v defaultGraphNode).value

/-- The classification currently recorded for variable `v`. -/
def nodeClass (nodes : List GraphNode) (v : Nat) : Classification :=
  (nodes.getD v defaultGraphNode).classification

/-- `insert_edge`: push edge `edge_idx` onto node `node_id`'s intrusive
list for direction `edge_dir`. -/
def insert_edge (g : Graph) (node_id : RegionVid) (edge_dir : Direction)
    (edge_idx : Nat) : Graph :=
  let prev_head :=
    dirGet (g.nodes.getD node_id defaultGraphNode).head_edge edge_dir
  let e := g.edges.getD edge_idx defaultGraphEdge
  let edges := g.edges.set edge_idx
    { e with next_edge := dirSet e.next_edge edge_dir prev_head }
  let n := g.nodes.getD node_id defaultGraphNode
  let nodes := g.nodes.set node_id
    { n with head_edge := dirSet n.head_edge edge_dir (some edge_idx) }
  { nodes := nodes, edges := edges }

/-- `construct_graph`: one initially Contracting, NoValue node per
variable; one edge per constraint; variable-involving edges linked into
the intrusive adjacency lists. -/
def construct_graph (s : RegionVarBindings) : Graph :=
  let nodes := s.var_origins.map (fun o =>
    { origin := o, classification := Classification.Contracting,
      value := GraphNodeValue.NoValue,
      head_edge := (none, none) : GraphNode })
  let edges := (alistKeys s.constraints).map (fun c =>
    { next_edge := (none, none), constraint := c : GraphEdge })
  (List.range edges.length).foldl (fun g edge_idx =>
    match (g.edges.getD edge_idx defaultGraphEdge).constraint with
    | .ConstrainVarSubVar a_id b_id =>
      insert_edge (insert_edge g a_id .Outgoing edge_idx) b_id .Incoming
        edge_idx
    | .ConstrainRegSubVar _ b_id => insert_edge g b_id .Incoming edge_idx
    | .ConstrainVarSubReg a_id _ => insert_edge g a_id .Outgoing edge_idx
    | .ConstrainRegSubReg _ _ => g)
    { nodes := nodes, edges := edges }

/-! ## The solver: fixed-point phases -/

/-- `expand_node`: classify the target as Expanding, then take the region
or the LUB with the current value; answers whether anything grew.  `none`
models the `span_bug` inside `lub_concrete_regions` on a variable. -/
def expand_node (rm : RegionMaps) (a_region : Region) (b_node : GraphNode) :
    Option (GraphNode × Bool) :=
  let b1 := { b_node with classification := Classification.Expanding }
  match b1.value with
  | .NoValue => some ({ b1 with value := .Value a_region }, true)
  | .Value cur_region =>
    match lub_concrete_regions rm a_region cur_region with
    | none => none
    | some lub =>
      if lub = cur_region then some (b1, false)
      else some ({ b1 with value := .Value lub }, true)
  | .ErrorValue => some (b1, false)

/-- One edge of the expansion pass (the closure given to
`iterate_until_fixed_point` by `expansion`). -/
def expansionStep (rm : RegionMaps) (nodes : List GraphNode)
    (c : Constraint) : Option (List GraphNode × Bool) :=
  match c with
  | .ConstrainRegSubVar a_region b_vid =>
    match expand_node rm a_region (nodes.getD b_vid defaultGraphNode) with
    | none => none
    | some (b2, ch) => some (nodes.set b_vid b2, ch)
  | .ConstrainVarSubVar a_vid b_vid =>
    match (nodes.getD a_vid defaultGraphNode).value with
    | .NoValue => some (nodes, false)
    | .ErrorValue => some (nodes, false)
    | .Value a_region =>
      match expand_node rm a_region (nodes.getD b_vid defaultGraphNode) with
      | none => none
      | some (b2, ch) => some (nodes.set b_vid b2, ch)
  | .ConstrainVarSubReg _ _ => some (nodes, false)
  | .ConstrainRegSubReg _ _ => some (nodes, false)

/-- `contract_node`: shrink (or for Expanding nodes: check) the value of
the constrained variable against an upper bound.  The `NoValue` arm sets
the value (the source asserts the node is Contracting there); `check_node`
and the GLB-failure arm set `ErrorValue` yet report "unchanged". -/
def contract_node (rm : RegionMaps) (a_node : GraphNode) (b_region : Region) :
    Option (GraphNode × Bool) :=
  match a_node.value with
  | .NoValue => some ({ a_node with value := .Value b_region }, true)
  | .ErrorValue => some (a_node, false)
  | .Value a_region =>
    match a_node.classification with
    | .Expanding =>
      if rm.is_subregion_of a_region b_region then some (a_node, false)
      else some ({ a_node with value := .ErrorValue }, false)
    | .Contracting =>
      match glb_concrete_regions rm a_region b_region with
      | none => none
      | some (.ok glb) =>
        if glb = a_region then some (a_node, false)
        else some ({ a_node with value := .Value glb }, true)
      | some (.err _) => some ({ a_node with value := .ErrorValue }, false)

/-- One edge of the contraction pass. -/
def contractionStep (rm : RegionMaps) (nodes : List GraphNode)
    (c : Constraint) : Option (List GraphNode × Bool) :=
  match c with
  | .ConstrainRegSubVar _ _ => some (nodes, false)
  | .ConstrainVarSubVar a_vid b_vid =>
    match (nodes.getD b_vid defaultGraphNode).value with
    | .NoValue => some (nodes, false)
    | .ErrorValue => some (nodes, false)
    | .Value b_region =>
      match contract_node rm (nodes.getD a_vid defaultGraphNode) b_region with
      | none => none
      | some (a2, ch) => some (nodes.set a_vid a2, ch)
  | .ConstrainVarSubReg a_vid b_region =>
    match contract_node rm (nodes.getD a_vid defaultGraphNode) b_region with
    | none => none
    | some (a2, ch) => some (nodes.set a_vid a2, ch)
  | .ConstrainRegSubReg _ _ => some (nodes, false)

/-- One whole pass over the edges, or-accumulating the `changed` flag
(the `for edge_idx` body of `iterate_until_fixed_point`). -/
def runPass
    (step : List GraphNode → Constraint → Option (List GraphNode × Bool))
    (cs : List Constraint) (nodes : List GraphNode) :
    Option (List GraphNode × Bool) :=
  cs.foldl (fun acc c =>
    match acc with
    | none => none
    | some (ns, changed) =>
      match step ns c with
      | none => none
      | some (ns2, ch) => some (ns2, changed || ch))
    (some (nodes, false))

/-- The accumulator action of one pass edge (proof-side name for the
fold body of `runPass`). -/
def passBody
    (step : List GraphNode → Constraint → Option (List GraphNode × Bool)) :
    Option (List GraphNode × Bool) → Constraint →
      Option (List GraphNode × Bool) :=
  fun acc c =>
    match acc with
    | none => none
    | some (ns, changed) =>
      match step ns c with
      | none => none
      | some (ns2, ch) => some (ns2, changed || ch)

/-- `iterate_until_fixed_point`, with explicit fuel standing in for the
unbounded `while changed` loop: stop after the first pass that reports no
change. -/
def iterate_until_fixed_point
    (step : List GraphNode → Constraint → Option (List GraphNode × Bool))
    (cs : List Constraint) : Nat → List GraphNode → Option (List GraphNode)
  | 0, _ => none
  | fuel + 1, nodes =>
    match runPass step cs nodes with
    | none => none
    | some (ns, true) => iterate_until_fixed_point step cs fuel ns
    | some (ns, false) => some ns

/-- `expansion`: fixed-point LUB propagation from concrete lower bounds. -/
def expansion (rm : RegionMaps) (cs : List Constraint) (fuel : Nat)
    (nodes : List GraphNode) : Option (List GraphNode) :=
  iterate_until_fixed_point (expansionStep rm) cs fuel nodes

/-- `contraction`: fixed-point GLB propagation from concrete upper
bounds. -/
def contraction (rm : RegionMaps) (cs : List Constraint) (fuel : Nat)
    (nodes : List GraphNode) : Option (List GraphNode) :=
  iterate_until_fixed_point (contractionStep rm) cs fuel nodes

/-! ## The solver: error collection and extraction -/

/-- A collected concrete bound together with the origin of the constraint
it came from (`struct RegionAndOrigin`). -/
structure RegionAndOrigin where
  region : Region
  origin : SubregionOrigin
deriving DecidableEq, Repr

/-- The three error-record kinds (`enum RegionResolutionError`). -/
inductive RegionResolutionError where
  | ConcreteFailure (o : SubregionOrigin) (sub sup : Region)
  | SubSupConflict (vo : RegionVariableOrigin) (so : SubregionOrigin)
      (sub : Region) (supo : SubregionOrigin) (sup : Region)
  | SupSupConflict (vo : RegionVariableOrigin) (o1 : SubregionOrigin)
      (r1 : Region) (o2 : SubregionOrigin) (r2 : Region)
deriving DecidableEq, Repr

/-- `constraints.get_copy(..)`: the stored origin of a constraint.  The
key is always present where the source calls this (edges are built from
the map), so the default is never observable. -/
def lookupOrigin (m : List (Constraint × SubregionOrigin)) (c : Constraint) :
    SubregionOrigin :=
  (alistLookup m c).getD 0

/-- `collect_concrete_region_errors`: one `ConcreteFailure` per
`RegSubReg` edge whose relation does not hold. -/
def collect_concrete_region_errors (rm : RegionMaps)
    (s : RegionVarBindings) (g : Graph) : List RegionResolutionError :=
  g.edges.foldl (fun errs edge =>
    match edge.constraint with
    | .ConstrainRegSubReg sub sup =>
      if rm.is_subregion_of sub sup then errs
      else errs ++
        [.ConcreteFailure (lookupOrigin s.constraints edge.constraint) sub sup]
    | _ => errs) []

/-- Walk one intrusive edge list (`each_edge`), collecting the edges in
visit order; fuel guards against malformed (cyclic) lists. -/
def each_edge_list (g : Graph) (dir : Direction) :
    Nat → Option Nat → Option (List GraphEdge)
  | _, none => some []
  | 0, some _ => none
  | fuel + 1, some idx =>
    let e := g.edges.getD idx defaultGraphEdge
    match each_edge_list g dir fuel (dirGet e.next_edge dir) with
    | none => none
    | some rest => some (e :: rest)

/-- All edges of `node_idx` in direction `dir`. -/
def node_edges (g : Graph) (node_idx : RegionVid) (dir : Direction)
    (fuel : Nat) : Option (List GraphEdge) :=
  each_edge_list g dir fuel
    (dirGet (g.nodes.getD node_idx defaultGraphNode).head_edge dir)

/-- The mutable state of `collect_concrete_regions` (`struct WalkState`);
the stack's head is its top. -/
structure WalkState where
  set : List RegionVid
  stack : List RegionVid
  result : List RegionAndOrigin
  dup_found : Bool
deriving DecidableEq, Repr

/-- `HashSet::insert`: answers whether the element was new. -/
def setInsert (set : List RegionVid) (v : RegionVid) :
    List RegionVid × Bool :=
  if set.any (fun x => decide (x = v)) then (set, false)
  else (set ++ [v], true)

/-- `process_edges`: scan the edges of `source_vid` in direction `dir`,
pushing newly seen opposite variables and collecting concrete bounds. -/
def process_edges (s : RegionVarBindings) (state : WalkState) (g : Graph)
    (source_vid : RegionVid) (dir : Direction) (fuel : Nat) :
    Option WalkState :=
  match node_edges g source_vid dir fuel with
  | none => none
  | some edges =>
    some (edges.foldl (fun st edge =>
      match edge.constraint with
      | .ConstrainVarSubVar from_vid to_vid =>
        let opp_vid := if from_vid = source_vid then to_vid else from_vid
        let (set2, fresh) := setInsert st.set opp_vid
        if fresh then { st with set := set2, stack := opp_vid :: st.stack }
        else { st with set := set2 }
      | .ConstrainRegSubVar region _ =>
        { st with result := st.result ++
            [{ region := region,
               origin := lookupOrigin s.constraints edge.constraint }] }
      | .ConstrainVarSubReg _ region =>
        { st with result := st.result ++
            [{ region := region,
               origin := lookupOrigin s.constraints edge.constraint }] }
      | .ConstrainRegSubReg _ _ => st) state)

/-- The pop-mark-and-expand loop of `collect_concrete_regions`, threading
the shared duplicate-suppression vector. -/
def walkLoop (s : RegionVarBindings) (g : Graph) (orig_node_idx : RegionVid) :
    Nat → WalkState → List (Option RegionVid) →
    Option (WalkState × List (Option RegionVid))
  | 0, st, dv => if st.stack.isEmpty then some (st, dv) else none
  | fuel + 1, st, dv =>
    match st.stack with
    | [] => some (st, dv)
    | node_idx :: rest =>
      let st1 := { st with stack := rest }
      let (dv2, st2) :=
        match dv.getD node_idx none with
        | none => (dv.set node_idx (some orig_node_idx), st1)
        | some mark =>
          if mark ≠ orig_node_idx then (dv, { st1 with dup_found := true })
          else (dv, st1)
      let dir := match nodeClass g.nodes node_idx with
        | .Expanding => Direction.Incoming
        | .Contracting => Direction.Outgoing
      match process_edges s st2 g node_idx dir fuel with
      | none => none
      | some st3 => walkLoop s g orig_node_idx fuel st3 dv2

/-- `collect_concrete_regions`: gather the concrete regions justifying
`orig_node_idx`'s value by walking from it in direction `dir`, flipping
per-node according to classification; also reports whether another root
had already claimed a visited node. -/
def collect_concrete_regions (s : RegionVarBindings) (g : Graph)
    (orig_node_idx : RegionVid) (dir : Direction)
    (dup_vec : List (Option RegionVid)) (fuel : Nat) :
    Option (List RegionAndOrigin × Bool × List (Option RegionVid)) :=
  let state0 : WalkState :=
    { set := [orig_node_idx], stack := [orig_node_idx], result := [],
      dup_found := false }
  match process_edges s state0 g orig_node_idx dir fuel with
  | none => none
  | some state1 =>
    match walkLoop s g orig_node_idx fuel state1 dup_vec with
    | none => none
    | some (stF, dvF) => some (stF.result, stF.dup_found, dvF)

/-- `collect_error_for_expanding_node`: a lower bound not contained in an
upper bound; suppressed when a previous walk already claimed a node;
`none` models the `span_bug` when no conflicting pair exists. -/
def collect_error_for_expanding_node (rm : RegionMaps)
    (s : RegionVarBindings) (g : Graph) (dup_vec : List (Option RegionVid))
    (node_idx : RegionVid) (fuel : Nat) :
    Option (List RegionResolutionError × List (Option RegionVid)) :=
  match collect_concrete_regions s g node_idx .Incoming dup_vec fuel with
  | none => none
  | some (lower_bounds, lower_dup, dv1) =>
    match collect_concrete_regions s g node_idx .Outgoing dv1 fuel with
    | none => none
    | some (upper_bounds, upper_dup, dv2) =>
      if lower_dup || upper_dup then some ([], dv2)
      else
        match lower_bounds.findSome? (fun lower_bound =>
          upper_bounds.findSome? (fun upper_bound =>
            if rm.is_subregion_of lower_bound.region upper_bound.region
            then none
            else some (RegionResolutionError.SubSupConflict
              (s.var_origins.getD node_idx 0)
              lower_bound.origin lower_bound.region
              upper_bound.origin upper_bound.region))) with
        | some e => some ([e], dv2)
        | none => none

/-- `collect_error_for_contracting_node`: two upper bounds with no
intersection; `none` models both `span_bug`s (no pair found, or a
variable reaching `glb_concrete_regions`). -/
def collect_error_for_contracting_node (rm : RegionMaps)
    (s : RegionVarBindings) (g : Graph) (dup_vec : List (Option RegionVid))
    (node_idx : RegionVid) (fuel : Nat) :
    Option (List RegionResolutionError × List (Option RegionVid)) :=
  match collect_concrete_regions s g node_idx .Outgoing dup_vec fuel with
  | none => none
  | some (upper_bounds, dup_found, dv1) =>
    if dup_found then some ([], dv1)
    else
      match upper_bounds.findSome? (fun upper_bound_1 =>
        upper_bounds.findSome? (fun upper_bound_2 =>
          match glb_concrete_regions rm upper_bound_1.region
              upper_bound_2.region with
          | none => some none
          | some (.ok _) => none
          | some (.err _) =>
            some (some (RegionResolutionError.SupSupConflict
              (s.var_origins.getD node_idx 0)
              upper_bound_1.origin upper_bound_1.region
              upper_bound_2.origin upper_bound_2.region)))) with
      | some (some e) => some ([e], dv1)
      | some none => none
      | none => none

/-- `extract_values_and_collect_conflicts`: walk the nodes in index
order, reconstructing one error per `ErrorValue` node (modulo duplicate
suppression), and extract the per-node values. -/
def extract_values_and_collect_conflicts (rm : RegionMaps)
    (s : RegionVarBindings) (g : Graph) (fuel : Nat) :
    Option (List RegionResolutionError × List GraphNodeValue) :=
  let dup_vec : List (Option RegionVid) :=
    g.nodes.map (fun _ => none)
  let folded := g.nodes.enum.foldl (fun acc p =>
    match acc with
    | none => none
    | some (errs, dv) =>
      match p.2.value with
      | .Value _ => some (errs, dv)
      | .NoValue => some (errs, dv)
      | .ErrorValue =>
        match p.2.classification with
        | .Expanding =>
          match collect_error_for_expanding_node rm s g dv p.1 fuel with
          | none => none
          | some (es, dv2) => some (errs ++ es, dv2)
        | .Contracting =>
          match collect_error_for_contracting_node rm s g dv p.1 fuel with
          | none => none
          | some (es, dv2) => some (errs ++ es, dv2))
    (some ([], dup_vec))
  match folded with
  | none => none
  | some (errs, _) => some (errs, g.nodes.map (fun n => n.value))

/-- `infer_variable_values`: construct the graph, run expansion then
contraction, then collect concrete conflicts and per-variable errors. -/
def infer_variable_values (rm : RegionMaps) (fuel : Nat)
    (s : RegionVarBindings) :
    Option (List RegionResolutionError × List GraphNodeValue) :=
  let g := construct_graph s
  let cs := g.edges.map (fun e => e.constraint)
  match expansion rm cs fuel g.nodes with
  | none => none
  | some ns1 =>
    match contraction rm cs fuel ns1 with
    | none => none
    | some ns2 =>
      let g2 : Graph := { g with nodes := ns2 }
      let errs1 := collect_concrete_region_errors rm s g2
      match extract_values_and_collect_conflicts rm s g2 fuel with
      | none => none
      | some (errs2, vals) => some (errs1 ++ errs2, vals)

/-- `resolve_regions`: run inference and store the computed values into
the write-once cell (`put_back` on a full cell would itself be a bug,
hence the guard). -/
def resolve_regions (rm : RegionMaps) (fuel : Nat) (s : RegionVarBindings) :
    Option (List RegionResolutionError × RegionVarBindings) :=
  if s.values ≠ none then none
  else
    match infer_variable_values rm fuel s with
    | none => none
    | some (errs, vals) => some (errs, { s with values := some vals })

/-! ## Operation sequences and observables (for the snapshot and counter
properties) -/

/-- The building operations a snapshot round-trip quantifies over:
`new_var`, `make_subregion`, and `combine_vars` (the latter with the
`relate` closure `lub_regions`/`glb_regions` pass it). -/
inductive BuildOp where
  | opNewVar (o : RegionVariableOrigin)
  | opMakeSub (o : SubregionOrigin) (sub sup : Region)
  | opCombine (t : CombineMapType) (o : SubregionOrigin) (a b : Region)
deriving DecidableEq, Repr

/-- Apply one building operation.  An operation that signals a compiler
bug aborts the program, so no later state exists to observe; such a call
is modelled as leaving the store unchanged. -/
def applyBuildOp (s : RegionVarBindings) : BuildOp → RegionVarBindings
  | .opNewVar o => (s.new_region_var o).2
  | .opMakeSub o sub sup => (s.make_subregion o sub sup).getD s
  | .opCombine t o a b =>
    match s.combine_vars t a b o (RegionVarBindings.relateFor t o) with
    | some p => p.2
    | none => s

/-- Apply a sequence of building operations, oldest first. -/
def applyBuildOps (s : RegionVarBindings) (ops : List BuildOp) :
    RegionVarBindings :=
  ops.foldl applyBuildOp s

/-- The observable store of the snapshot round-trip property: the number
of variables, the constraint set (the keys of the constraint map), and
the LUB and GLB memo tables. -/
def obsStore (s : RegionVarBindings) :
    Nat × List Constraint × List (TwoRegions × RegionVid) ×
      List (TwoRegions × RegionVid) :=
  (s.num_vars, alistKeys s.constraints, s.lubs, s.glbs)

/-- The undo-log entries a building step pushed form a prefix of the new
log, and folding the undo action over that prefix restores the observable
store.  This is the inductive backbone of the snapshot round-trip. -/
def UndoOk (s s2 : RegionVarBindings) : Prop :=
  ∃ pre, s2.undo_log = pre ++ s.undo_log ∧
    obsStore (pre.foldl RegionVarBindings.undoEntry s2) = obsStore s

/-- All store operations (used to state that the skolemization and
fresh-bound counters never decrease, whatever the caller does). -/
inductive StoreOp where
  | sNewVar (o : RegionVariableOrigin)
  | sNewSkolem (br : BoundRegion)
  | sNewBound
  | sMakeSub (o : SubregionOrigin) (sub sup : Region)
  | sLub (o : SubregionOrigin) (a b : Region)
  | sGlb (o : SubregionOrigin) (a b : Region)
  | sStartSnapshot
  | sCommit
  | sRollback (snapshot : Nat)
deriving DecidableEq, Repr

/-- Apply one store operation (bug signals again leave the store
unchanged, as no post-bug state is observable). -/
def applyStoreOp (s : RegionVarBindings) : StoreOp → RegionVarBindings
  | .sNewVar o => (s.new_region_var o).2
  | .sNewSkolem br => (s.new_skolemized br).2
  | .sNewBound => s.new_bound.2
  | .sMakeSub o sub sup => (s.make_subregion o sub sup).getD s
  | .sLub o a b => ((s.lub_regions o a b).map Prod.snd).getD s
  | .sGlb o a b => ((s.glb_regions o a b).map Prod.snd).getD s
  | .sStartSnapshot => s.start_snapshot.2
  | .sCommit => s.commit
  | .sRollback n => RegionVarBindings.rollback_to n s

/-- Apply a sequence of store operations, oldest first. -/
def applyStoreOps (s : RegionVarBindings) (ops : List StoreOp) :
    RegionVarBindings :=
  ops.foldl applyStoreOp s

/-! ## Satisfaction predicates (for the solver property) -/

/-- A constraint is satisfied by the computed value vector whenever every
variable endpoint that ended with a concrete `Value` relates correctly;
endpoints left at `NoValue` or marked `ErrorValue` impose nothing. -/
def satVals (rm : RegionMaps) (vals : List GraphNodeValue) :
    Constraint → Prop
  | .ConstrainVarSubVar a b =>
    ∀ ra rb, vals.getD a .NoValue = .Value ra →
      vals.getD b .NoValue = .Value rb → rm.is_subregion_of ra rb = true
  | .ConstrainRegSubVar r b =>
    ∀ rb, vals.getD b .NoValue = .Value rb →
      rm.is_subregion_of r rb = true
  | .ConstrainVarSubReg a r =>
    ∀ ra, vals.getD a .NoValue = .Value ra →
      rm.is_subregion_of ra r = true
  | .ConstrainRegSubReg _ _ => True

/-- A constraint is satisfied by the total post-solve valuation
`resolve_var` exposes (claim wording: "the computed value of every
variable"), where `NoValue` resolves to `re_empty` and `ErrorValue` to
`re_static`. -/
def satResolved (rm : RegionMaps) (s : RegionVarBindings) :
    Constraint → Prop
  | .ConstrainVarSubVar a b =>
    ∀ ra rb, s.resolve_var a = some ra → s.resolve_var b = some rb →
      rm.is_subregion_of ra rb = true
  | .ConstrainRegSubVar r b =>
    ∀ rb, s.resolve_var b = some rb → rm.is_subregion_of r rb = true
  | .ConstrainVarSubReg a r =>
    ∀ ra, s.resolve_var a = some ra → rm.is_subregion_of ra r = true
  | .ConstrainRegSubReg _ _ => True

/-- What a no-change expansion pass guarantees per `RegSubVar` edge: the
lower bound is already folded into the target's value (or the target is
erroneous), and the target has been classified Expanding. -/
def expPassPost (rm : RegionMaps) (ns : List GraphNode) : Constraint → Prop
  | .ConstrainRegSubVar r b =>
    ((∃ cur, nodeValue ns b = .Value cur ∧
        lub_concrete_regions rm r cur = some cur) ∨
      nodeValue ns b = .ErrorValue) ∧
    (b < ns.length → nodeClass ns b = .Expanding)
  | _ => True

/-- What a no-change contraction pass guarantees per edge: every
variable endpoint holding a concrete value respects its upper bound. -/
def contPassPost (rm : RegionMaps) (ns : List GraphNode) : Constraint → Prop
  | .ConstrainVarSubVar a b =>
    ∀ ra rb, nodeValue ns a = .Value ra → nodeValue ns b = .Value rb →
      rm.is_subregion_of ra rb = true
  | .ConstrainVarSubReg a r =>
    ∀ ra, nodeValue ns a = .Value ra → rm.is_subregion_of ra r = true
  | _ => True

/-- A no-change pass only ever moves node values to `ErrorValue`. -/
def errOnly (ns ns2 : List GraphNode) : Prop :=
  ∀ v, nodeValue ns2 v = nodeValue ns v ∨ nodeValue ns2 v = .ErrorValue

/-- What a no-change expansion pass does to the node vector: values are
untouched, the length is kept, and Expanding classifications stick. -/
def expStable (ns ns2 : List GraphNode) : Prop :=
  ns2.length = ns.length ∧
  (∀ v, nodeValue ns2 v = nodeValue ns v) ∧
  (∀ v, nodeClass ns v = .Expanding → nodeClass ns2 v = .Expanding)

/-- What any amount of contraction preserves: classifications, and the
values of Expanding nodes (which can only fall to `ErrorValue`). -/
def contStable (ns ns2 : List GraphNode) : Prop :=
  (∀ v, nodeClass ns2 v = nodeClass ns v) ∧
  (∀ v, nodeClass ns v = .Expanding → nodeValue ns v ≠ .NoValue →
    (nodeValue ns2 v = nodeValue ns v ∨ nodeValue ns2 v = .ErrorValue) ∧
    nodeValue ns2 v ≠ .NoValue)

/-- The taint-walker closure fact for one seed region: every relevant
logged constraint with `r` on one side has its other side in the set. -/
def taintClosedAt (entries : List UndoLogEntry) (rs : List Region)
    (r : Region) : Prop :=
  ∀ e ∈ entries, ∀ r1 r2, constraintEndpoints e = some (r1, r2) →
    (r = r1 → r2 ∈ rs) ∧ (r = r2 → r1 ∈ rs)

/-! ## Concrete instances used by witnesses and counterexamples -/

/-- A degenerate scope-tree oracle: no common ancestors, no sub-free
relations, and an outlives relation under which `re_empty` is below
everything, `re_static` above everything, and each region below itself. -/
def rmSmall : RegionMaps :=
  { nearest_common_ancestor := fun _ _ => none
    sub_free_region := fun _ _ => false
    is_subregion_of := fun a b =>
      decide (a = b) || decide (a = .re_empty) || decide (b = .re_static) }

/-- An oracle whose outlives relation holds everywhere (trivially
coherent with the lattice operators). -/
def rmTotal : RegionMaps :=
  { nearest_common_ancestor := fun _ _ => none
    sub_free_region := fun _ _ => false
    is_subregion_of := fun _ _ => true }

/-- Two variables, `$0 <= $1` and `$0 <= static`: after solving, `$0`
resolves to `re_static` while `$1` stays unconstrained (`NoValue`). -/
def storeUpperOnly : RegionVarBindings :=
  { emptyBindings with
    var_origins := [0, 1]
    constraints := [(.ConstrainVarSubVar 0 1, 5),
                    (.ConstrainVarSubReg 0 .re_static, 6)] }

/-- One variable with the single lower bound `Scope(3) <= $0`. -/
def storeLowerOnly : RegionVarBindings :=
  { emptyBindings with
    var_origins := [0]
    constraints := [(.ConstrainRegSubVar (.re_scope 3) 0, 5)] }

/-- A store in the middle of a snapshot, with two variables and two
logged constraints (the seed scenario for the taint walker). -/
def storeTaint : RegionVarBindings :=
  { emptyBindings with
    var_origins := [0, 1]
    undo_log := [.AddConstraint (.ConstrainVarSubVar 0 1),
                 .AddConstraint (.ConstrainRegSubVar (.re_scope 5) 0),
                 .Snapshot] }

/-- The store produced by one `combine_vars(Lub, Scope(1), Scope(2))` on
the empty store (used to exercise memoization). -/
def storeCombined : RegionVarBindings :=
  ((emptyBindings.combine_vars .Lub (.re_scope 1) (.re_scope 2) 7
    (RegionVarBindings.relateFor .Lub 7)).getD (.re_static, emptyBindings)).2

/-- A store whose values cell is already occupied (solving finished). -/
def storeSolved : RegionVarBindings :=
  { emptyBindings with values := some [] }

/-- The store produced by solving `storeUpperOnly` under `rmSmall`. -/
def storeUpperSolved : RegionVarBindings :=
  ((resolve_regions rmSmall 10 storeUpperOnly).getD ([], emptyBindings)).2

/-- The store produced by solving `storeLowerOnly` under `rmTotal`. -/
def storeLowerSolved : RegionVarBindings :=
  ((resolve_regions rmTotal 10 storeLowerOnly).getD ([], emptyBindings)).2

/-- Two distinct skolemized regions (for exercising the lattice
operators on the "no additional relationship" arm). -/
def skolemA : Region := .re_skolemized 0 (.br_named 0)

/-- The second of the two distinct skolemized regions. -/
def skolemB : Region := .re_skolemized 1 (.br_named 0)

/-- A store holding a single concrete `RegSubReg` constraint that fails
under `rmSmall` (`re_static <= re_empty`). -/
def storeConcrete : RegionVarBindings :=
  { emptyBindings with
    constraints := [(.ConstrainRegSubReg .re_static .re_empty, 7)] }

/-- The error record, if any, that one constraint contributes to
`collect_concrete_region_errors` (proof-side characterization). -/
def concreteError (rm : RegionMaps) (s : RegionVarBindings) :
    Constraint → Option RegionResolutionError
  | .ConstrainRegSubReg sub sup =>
    if rm.is_subregion_of sub sup then none
    else some (.ConcreteFailure
      (lookupOrigin s.constraints (.ConstrainRegSubReg sub sup)) sub sup)
  | _ => none

/-- The accumulator action of one edge in
`collect_concrete_region_errors` (proof-side name for its fold body). -/
def concreteBody (rm : RegionMaps) (s : RegionVarBindings) :
    List RegionResolutionError → GraphEdge → List RegionResolutionError :=
  fun errs edge =>
    match edge.constraint with
    | .ConstrainRegSubReg sub sup =>
      if rm.is_subregion_of sub sup then errs
      else errs ++
        [.ConcreteFailure (lookupOrigin s.constraints edge.constraint) sub sup]
    | _ => errs

/-- The accumulator action of one node in
`extract_values_and_collect_conflicts` (proof-side name for its fold
body). -/
def extractBody (rm : RegionMaps) (s : RegionVarBindings) (g : Graph)
    (fuel : Nat) :
    Option (List RegionResolutionError × List (Option RegionVid)) →
    Nat × GraphNode →
    Option (List RegionResolutionError × List (Option RegionVid)) :=
  fun acc p =>
    match acc with
    | none => none
    | some (errs, dv) =>
      match p.2.value with
      | .Value _ => some (errs, dv)
      | .NoValue => some (errs, dv)
      | .ErrorValue =>
        match p.2.classification with
        | .Expanding =>
          match collect_error_for_expanding_node rm s g dv p.1 fuel with
          | none => none
          | some (es, dv2) => some (errs ++ es, dv2)
        | .Contracting =>
          match collect_error_for_contracting_node rm s g dv p.1 fuel with
          | none => none
          | some (es, dv2) => some (errs ++ es, dv2)

/-! # Helper lemmas -/

/-- Appending a binding for an absent key makes it findable. -/
theorem alistLookup_append_self {α β : Type} [DecidableEq α]
    (m : List (α × β)) (k : α) (v : β) (h : alistLookup m k = none) :
    alistLookup (m ++ [(k, v)]) k = some v := by
  induction m with
  | nil => simp [alistLookup]
  | cons p rest ih =>
    rw [List.cons_append]
    simp only [alistLookup] at h ⊢
    by_cases hk : p.1 = k
    · simp [hk] at h
    · simp only [hk, if_false] at h ⊢
      exact ih h

/-- `add_constraint` cannot signal a bug while the store is unsolved. -/
theorem add_constraint_ne_none (s : RegionVarBindings) (c : Constraint)
    (o : SubregionOrigin) (h : s.values = none) :
    s.add_constraint c o ≠ none := by
  unfold RegionVarBindings.add_constraint
  simp [h]

/-- `add_constraint` leaves both memo tables untouched. -/
theorem add_constraint_memo (s : RegionVarBindings) (c : Constraint)
    (o : SubregionOrigin) (s2 : RegionVarBindings)
    (h : s.add_constraint c o = some s2) :
    s2.lubs = s.lubs ∧ s2.glbs = s.glbs := by
  unfold RegionVarBindings.add_constraint at h
  split at h
  · exact absurd h (by simp)
  · cases hI : alistInsert s.constraints c o with
    | mk m fresh =>
      rw [hI] at h
      simp only [Option.some.injEq] at h
      subst h
      split <;> exact ⟨rfl, rfl⟩

/-- `make_subregion` leaves both memo tables untouched. -/
theorem make_subregion_memo (s : RegionVarBindings) (o : SubregionOrigin)
    (sub sup : Region) (s2 : RegionVarBindings)
    (h : s.make_subregion o sub sup = some s2) :
    s2.lubs = s.lubs ∧ s2.glbs = s.glbs := by
  unfold RegionVarBindings.make_subregion at h
  split at h
  · exact absurd h (by simp)
  · split at h <;>
      first
        | exact add_constraint_memo _ _ _ _ h
        | exact absurd h (by simp)

/-- The `relate` closures of `lub_regions`/`glb_regions` leave both memo
tables untouched. -/
theorem relateFor_memo (t : CombineMapType) (o : SubregionOrigin)
    (s : RegionVarBindings) (x y : Region) (s2 : RegionVarBindings)
    (h : RegionVarBindings.relateFor t o s x y = some s2) :
    s2.lubs = s.lubs ∧ s2.glbs = s.glbs := by
  cases t <;> exact make_subregion_memo _ _ _ _ _ h

/-- Equal memo tables give equal `combine_map` views. -/
theorem combine_map_get_congr (s s2 : RegionVarBindings)
    (hl : s2.lubs = s.lubs) (hg : s2.glbs = s.glbs) (t : CombineMapType) :
    s2.combine_map_get t = s.combine_map_get t := by
  cases t <;> simp [RegionVarBindings.combine_map_get, hl, hg]

/-! # Claim C8 -/

/-- C8: after `resolve_regions` has filled the values cell,
`resolve_var(v)` returns `r` for `Value(r)`, `re_empty` for `NoValue`
and `re_static` for `ErrorValue`; calling it while the cell is still
empty signals a compiler bug. -/
theorem C8_resolve_var_spec (s : RegionVarBindings) (v : RegionVid) :
    (s.values = none → s.resolve_var v = none) ∧
    (∀ vs, s.values = some vs →
      s.resolve_var v =
        some (match vs.getD v .NoValue with
          | .Value r => r
          | .NoValue => .re_empty
          | .ErrorValue => .re_static)) := by
  constructor
  · intro h
    simp [RegionVarBindings.resolve_var, h]
  · intro vs h
    simp only [RegionVarBindings.resolve_var, h]
    cases vs.getD v GraphNodeValue.NoValue <;> rfl

/-- Witness for C8 at a concrete store: a `NoValue` slot resolves to
`re_empty` and the unsolved store signals the bug. -/
theorem C8_witness :
    RegionVarBindings.resolve_var
      { emptyBindings with
        values := some [.Value .re_static, .NoValue, .ErrorValue] } 1 =
      some .re_empty ∧
    RegionVarBindings.resolve_var emptyBindings 0 = none := by
  constructor
  · exact (C8_resolve_var_spec
      { emptyBindings with
        values := some [.Value .re_static, .NoValue, .ErrorValue] } 1).2
      _ rfl
  · exact (C8_resolve_var_spec emptyBindings 0).1 rfl

/-! # Claim C5 -/

/-- C5 (counterexample): `new_region_var` invoked on a store whose values
have already been computed does not signal any bug: it completes
normally and appends the new variable. -/
theorem C5_counterexample :
    RegionVarBindings.new_region_var storeSolved 0 =
      (0, { storeSolved with var_origins := [0] }) := by
  rfl

/-- C5 (amended): after solving, `make_subregion`, `lub_regions`,
`glb_regions` (and the underlying `add_constraint`) signal the
"not yet solved" assertion failure; `new_region_var`, `new_skolemized`
and `new_bound` perform no such assertion and complete normally. -/
theorem C5_amended (s : RegionVarBindings) (h : s.values ≠ none)
    (c : Constraint) (o : SubregionOrigin) (sub sup a b : Region)
    (vo : RegionVariableOrigin) (br : BoundRegion) :
    s.make_subregion o sub sup = none ∧
    s.lub_regions o a b = none ∧
    s.glb_regions o a b = none ∧
    s.add_constraint c o = none ∧
    (s.new_region_var vo).2.var_origins = s.var_origins ++ [vo] ∧
    (s.new_skolemized br).1 = .re_skolemized s.skolemization_count br ∧
    s.new_bound.1 = .re_bound (.br_fresh s.bound_count) := by
  refine ⟨?_, ?_, ?_, ?_, ?_, rfl, rfl⟩
  · simp [RegionVarBindings.make_subregion, h]
  · simp [RegionVarBindings.lub_regions, h]
  · simp [RegionVarBindings.glb_regions, h]
  · simp [RegionVarBindings.add_constraint, h]
  · unfold RegionVarBindings.new_region_var
    dsimp only
    split <;> rfl

/-- Witness for C5 (amended) at the concrete solved store. -/
theorem C5_amended_witness :
    storeSolved.make_subregion 0 (.re_scope 1) (.re_scope 2) = none ∧
    storeSolved.lub_regions 0 (.re_scope 1) (.re_scope 2) = none ∧
    storeSolved.glb_regions 0 (.re_scope 1) (.re_scope 2) = none ∧
    storeSolved.add_constraint
      (.ConstrainRegSubReg .re_static .re_static) 0 = none ∧
    (storeSolved.new_region_var 4).2.var_origins =
      storeSolved.var_origins ++ [4] ∧
    (storeSolved.new_skolemized (.br_named 0)).1 =
      .re_skolemized storeSolved.skolemization_count (.br_named 0) ∧
    storeSolved.new_bound.1 =
      .re_bound (.br_fresh storeSolved.bound_count) :=
  C5_amended storeSolved (by decide)
    (.ConstrainRegSubReg .re_static .re_static) 0
    (.re_scope 1) (.re_scope 2) (.re_scope 1) (.re_scope 2) 4 (.br_named 0)

/-! # Claim C6 -/

/-- C6 (counterexample): `make_subregion` with a bound sub-region and a
variable super-region signals no bug and records a `RegSubVar`
constraint, against the claim that a `Bound` endpoint always signals a
bug and records nothing. -/
theorem C6_counterexample :
    RegionVarBindings.make_subregion emptyBindings 3
      (.re_bound (.br_named 0)) (.re_var 0) =
      some { emptyBindings with
        constraints :=
          [(.ConstrainRegSubVar (.re_bound (.br_named 0)) 0, 3)] } := by
  rfl

/-- C6 (amended): on an unsolved store, a call with a `Bound` endpoint
signals the compiler bug exactly when the other side is not an inference
variable; with a variable on the other side the constraint is recorded
instead. -/
theorem C6_amended (s : RegionVarBindings) (h : s.values = none)
    (o : SubregionOrigin) (sub sup : Region)
    (hb : sub.isBound = true ∨ sup.isBound = true) :
    (s.make_subregion o sub sup = none ↔
      sub.isVar = false ∧ sup.isVar = false) := by
  have hne := fun c => add_constraint_ne_none s c o h
  cases sub <;> cases sup <;>
    simp_all [RegionVarBindings.make_subregion, Region.isBound,
      Region.isVar]

/-- Witness for C6 (amended): a bound region below a non-variable scope
region does signal the bug. -/
theorem C6_amended_witness :
    (RegionVarBindings.make_subregion emptyBindings 3
        (.re_bound (.br_named 0)) (.re_scope 7) = none ↔
      (Region.re_bound (.br_named 0)).isVar = false ∧
        (Region.re_scope 7).isVar = false) :=
  C6_amended emptyBindings rfl 3 _ _ (Or.inl rfl)

/-! # Claim C3 -/

/-- C3 (counterexample): `combine_vars` is memoized on the ordered pair,
not the unordered one: repeating a LUB combination with the two regions
swapped misses the memo, synthesizes a second fresh variable and grows
the variable count. -/
theorem C3_counterexample :
    ((emptyBindings.combine_vars .Lub (.re_scope 1) (.re_scope 2) 7
        (RegionVarBindings.relateFor .Lub 7)).map Prod.fst =
      some (.re_var 0)) ∧
    ((emptyBindings.combine_vars .Lub (.re_scope 1) (.re_scope 2) 7
        (RegionVarBindings.relateFor .Lub 7)).bind
      (fun p => p.2.combine_vars .Lub (.re_scope 2) (.re_scope 1) 8
        (RegionVarBindings.relateFor .Lub 8))).map Prod.fst =
      some (.re_var 1) ∧
    ((emptyBindings.combine_vars .Lub (.re_scope 1) (.re_scope 2) 7
        (RegionVarBindings.relateFor .Lub 7)).bind
      (fun p => p.2.combine_vars .Lub (.re_scope 2) (.re_scope 1) 8
        (RegionVarBindings.relateFor .Lub 8))).map
      (fun p => p.2.num_vars) = some 2 := by
  refine ⟨by decide, by decide, by decide⟩

/-- On success, `combine_vars` leaves the looked-up ordered pair bound to
the returned variable in the chosen memo table. -/
theorem combine_vars_memo_hit (s : RegionVarBindings) (t : CombineMapType)
    (a b : Region) (o : SubregionOrigin) (r1 : Region)
    (s1 : RegionVarBindings)
    (relate : RegionVarBindings → Region → Region →
      Option RegionVarBindings)
    (hrel : ∀ s' x y s'', relate s' x y = some s'' →
      s''.lubs = s'.lubs ∧ s''.glbs = s'.glbs)
    (h : s.combine_vars t a b o relate = some (r1, s1)) :
    ∃ c, r1 = .re_var c ∧
      alistLookup (s1.combine_map_get t) { a := a, b := b } = some c := by
  unfold RegionVarBindings.combine_vars at h
  dsimp only at h
  cases hl : alistLookup (s.combine_map_get t) { a := a, b := b } with
  | some c =>
    rw [hl] at h
    simp only [Option.some.injEq, Prod.mk.injEq] at h
    obtain ⟨hr, hs⟩ := h
    subst hs
    exact ⟨c, hr.symm, hl⟩
  | none =>
    rw [hl] at h
    simp only [RegionVarBindings.new_region_var] at h
    split at h
    · exact absurd h (by simp)
    · rename_i s4 hr1
      split at h
      · exact absurd h (by simp)
      · rename_i s5 hr2
        simp only [Option.some.injEq, Prod.mk.injEq] at h
        obtain ⟨hr, hs⟩ := h
        subst hs
        refine ⟨s.num_vars, hr.symm, ?_⟩
        obtain ⟨hl2, hg2⟩ := hrel _ _ _ _ hr2
        obtain ⟨hl1, hg1⟩ := hrel _ _ _ _ hr1
        rw [combine_map_get_congr _ _ hl2 hg2 t,
            combine_map_get_congr _ _ hl1 hg1 t]
        cases t <;>
          simp only [RegionVarBindings.combine_map_get,
            RegionVarBindings.combine_map_set,
            apply_ite RegionVarBindings.lubs,
            apply_ite RegionVarBindings.glbs, ite_self] <;>
          exact alistLookup_append_self _ _ _ hl

/-- C3 (amended): `combine_vars` is memoized on the ordered argument
pair: a second call with the same kind and the same two regions in the
same order returns exactly the variable synthesized by the first call
and leaves the store (hence the variable count) unchanged. -/
theorem C3_amended (s : RegionVarBindings) (t : CombineMapType)
    (a b : Region) (o1 o2 : SubregionOrigin) (r1 : Region)
    (s1 : RegionVarBindings)
    (h : s.combine_vars t a b o1 (RegionVarBindings.relateFor t o1) =
      some (r1, s1)) :
    s1.combine_vars t a b o2 (RegionVarBindings.relateFor t o2) =
      some (r1, s1) := by
  obtain ⟨c, hc, hfound⟩ :=
    combine_vars_memo_hit s t a b o1 r1 s1 _
      (fun s' x y s'' hxy => relateFor_memo t o1 s' x y s'' hxy) h
  unfold RegionVarBindings.combine_vars
  dsimp only
  rw [hfound, hc]

/-- Witness for C3 (amended): repeating the concrete LUB combination in
the original order returns `Var(0)` again on the unchanged store. -/
theorem C3_amended_witness :
    storeCombined.combine_vars .Lub (.re_scope 1) (.re_scope 2) 8
      (RegionVarBindings.relateFor .Lub 8) =
      some (.re_var 0, storeCombined) :=
  C3_amended emptyBindings .Lub (.re_scope 1) (.re_scope 2) 7 8
    (.re_var 0) storeCombined (by decide)

/-! # Claim C10 -/

/-- Undoing one log entry never touches either counter. -/
theorem undoEntry_counts (s : RegionVarBindings) (e : UndoLogEntry) :
    (RegionVarBindings.undoEntry s e).skolemization_count =
      s.skolemization_count ∧
    (RegionVarBindings.undoEntry s e).bound_count = s.bound_count := by
  cases e with
  | Snapshot => exact ⟨rfl, rfl⟩
  | AddVar vid => exact ⟨rfl, rfl⟩
  | AddConstraint c => exact ⟨rfl, rfl⟩
  | AddCombination t tr => cases t <;> exact ⟨rfl, rfl⟩

/-- Folding undo steps never touches either counter. -/
theorem foldl_undoEntry_counts (l : List UndoLogEntry) :
    ∀ s : RegionVarBindings,
      (l.foldl RegionVarBindings.undoEntry s).skolemization_count =
        s.skolemization_count ∧
      (l.foldl RegionVarBindings.undoEntry s).bound_count = s.bound_count := by
  induction l with
  | nil => exact fun s => ⟨rfl, rfl⟩
  | cons e rest ih =>
    intro s
    obtain ⟨h1, h2⟩ := ih (RegionVarBindings.undoEntry s e)
    obtain ⟨g1, g2⟩ := undoEntry_counts s e
    exact ⟨h1.trans g1, h2.trans g2⟩

/-- `rollback_to` preserves both counters. -/
theorem rollback_to_counts (n : Nat) (s : RegionVarBindings) :
    (RegionVarBindings.rollback_to n s).skolemization_count =
      s.skolemization_count ∧
    (RegionVarBindings.rollback_to n s).bound_count = s.bound_count := by
  unfold RegionVarBindings.rollback_to
  exact foldl_undoEntry_counts _ s

/-- `add_constraint` preserves both counters. -/
theorem add_constraint_counts (s : RegionVarBindings) (c : Constraint)
    (o : SubregionOrigin) (s2 : RegionVarBindings)
    (h : s.add_constraint c o = some s2) :
    s2.skolemization_count = s.skolemization_count ∧
    s2.bound_count = s.bound_count := by
  unfold RegionVarBindings.add_constraint at h
  split at h
  · exact absurd h (by simp)
  · cases hI : alistInsert s.constraints c o with
    | mk m fresh =>
      rw [hI] at h
      simp only [Option.some.injEq] at h
      subst h
      split <;> exact ⟨rfl, rfl⟩

/-- `make_subregion` preserves both counters. -/
theorem make_subregion_counts (s : RegionVarBindings) (o : SubregionOrigin)
    (sub sup : Region) (s2 : RegionVarBindings)
    (h : s.make_subregion o sub sup = some s2) :
    s2.skolemization_count = s.skolemization_count ∧
    s2.bound_count = s.bound_count := by
  unfold RegionVarBindings.make_subregion at h
  split at h
  · exact absurd h (by simp)
  · split at h <;>
      first
        | exact add_constraint_counts _ _ _ _ h
        | exact absurd h (by simp)

/-- The `relate` closures preserve both counters. -/
theorem relateFor_counts (t : CombineMapType) (o : SubregionOrigin)
    (s : RegionVarBindings) (x y : Region) (s2 : RegionVarBindings)
    (h : RegionVarBindings.relateFor t o s x y = some s2) :
    s2.skolemization_count = s.skolemization_count ∧
    s2.bound_count = s.bound_count := by
  cases t <;> exact make_subregion_counts _ _ _ _ _ h

/-- `combine_vars` (with the lub/glb relate closures) preserves both
counters. -/
theorem combine_vars_counts (s : RegionVarBindings) (t : CombineMapType)
    (a b : Region) (o : SubregionOrigin) (r1 : Region)
    (s1 : RegionVarBindings)
    (h : s.combine_vars t a b o (RegionVarBindings.relateFor t o) =
      some (r1, s1)) :
    s1.skolemization_count = s.skolemization_count ∧
    s1.bound_count = s.bound_count := by
  unfold RegionVarBindings.combine_vars at h
  dsimp only at h
  cases hl : alistLookup (s.combine_map_get t) { a := a, b := b } with
  | some c =>
    rw [hl] at h
    simp only [Option.some.injEq, Prod.mk.injEq] at h
    obtain ⟨-, hs⟩ := h
    subst hs
    exact ⟨rfl, rfl⟩
  | none =>
    rw [hl] at h
    simp only [RegionVarBindings.new_region_var] at h
    split at h
    · exact absurd h (by simp)
    · rename_i s4 hr1
      split at h
      · exact absurd h (by simp)
      · rename_i s5 hr2
        simp only [Option.some.injEq, Prod.mk.injEq] at h
        obtain ⟨-, hs⟩ := h
        subst hs
        obtain ⟨h2s, h2b⟩ := relateFor_counts _ _ _ _ _ _ hr2
        obtain ⟨h1s, h1b⟩ := relateFor_counts _ _ _ _ _ _ hr1
        simp only [apply_ite RegionVarBindings.skolemization_count,
          apply_ite RegionVarBindings.bound_count, ite_self] at h1s h1b
        constructor
        · rw [h2s, h1s]
          cases t <;>
            simp [RegionVarBindings.combine_map_set,
              apply_ite RegionVarBindings.skolemization_count, ite_self]
        · rw [h2b, h1b]
          cases t <;>
            simp [RegionVarBindings.combine_map_set,
              apply_ite RegionVarBindings.bound_count, ite_self]

/-- `lub_regions` preserves both counters. -/
theorem lub_regions_counts (s : RegionVarBindings) (o : SubregionOrigin)
    (a b : Region) (r1 : Region) (s1 : RegionVarBindings)
    (h : s.lub_regions o a b = some (r1, s1)) :
    s1.skolemization_count = s.skolemization_count ∧
    s1.bound_count = s.bound_count := by
  unfold RegionVarBindings.lub_regions at h
  split at h
  · exact absurd h (by simp)
  · split at h <;>
      first
        | · simp only [Option.some.injEq, Prod.mk.injEq] at h
            obtain ⟨-, hs⟩ := h
            subst hs
            exact ⟨rfl, rfl⟩
        | exact combine_vars_counts _ _ _ _ _ _ _ h

/-- `glb_regions` preserves both counters. -/
theorem glb_regions_counts (s : RegionVarBindings) (o : SubregionOrigin)
    (a b : Region) (r1 : Region) (s1 : RegionVarBindings)
    (h : s.glb_regions o a b = some (r1, s1)) :
    s1.skolemization_count = s.skolemization_count ∧
    s1.bound_count = s.bound_count := by
  unfold RegionVarBindings.glb_regions at h
  split at h
  · exact absurd h (by simp)
  · split at h <;>
      first
        | · simp only [Option.some.injEq, Prod.mk.injEq] at h
            obtain ⟨-, hs⟩ := h
            subst hs
            exact ⟨rfl, rfl⟩
        | exact combine_vars_counts _ _ _ _ _ _ _ h

/-- `new_region_var` preserves both counters. -/
theorem new_region_var_counts (s : RegionVarBindings)
    (o : RegionVariableOrigin) :
    (s.new_region_var o).2.skolemization_count = s.skolemization_count ∧
    (s.new_region_var o).2.bound_count = s.bound_count := by
  unfold RegionVarBindings.new_region_var
  dsimp only
  split <;> exact ⟨rfl, rfl⟩

/-- `start_snapshot` preserves both counters. -/
theorem start_snapshot_counts (s : RegionVarBindings) :
    s.start_snapshot.2.skolemization_count = s.skolemization_count ∧
    s.start_snapshot.2.bound_count = s.bound_count := by
  unfold RegionVarBindings.start_snapshot
  split <;> exact ⟨rfl, rfl⟩

/-- No store operation ever decreases either counter. -/
theorem applyStoreOp_counts_mono (s : RegionVarBindings) (op : StoreOp) :
    s.skolemization_count ≤ (applyStoreOp s op).skolemization_count ∧
    s.bound_count ≤ (applyStoreOp s op).bound_count := by
  cases op with
  | sNewVar o =>
    dsimp only [applyStoreOp]
    obtain ⟨h1, h2⟩ := new_region_var_counts s o
    exact ⟨le_of_eq h1.symm, le_of_eq h2.symm⟩
  | sNewSkolem br =>
    dsimp only [applyStoreOp, RegionVarBindings.new_skolemized]
    exact ⟨Nat.le_succ _, le_refl _⟩
  | sNewBound =>
    dsimp only [applyStoreOp, RegionVarBindings.new_bound]
    exact ⟨le_refl _, Nat.le_succ _⟩
  | sMakeSub o sub sup =>
    dsimp only [applyStoreOp]
    cases hm : s.make_subregion o sub sup with
    | none => simp only [Option.getD_none]; exact ⟨le_refl _, le_refl _⟩
    | some s2 =>
      simp only [Option.getD_some]
      obtain ⟨h1, h2⟩ := make_subregion_counts _ _ _ _ _ hm
      exact ⟨le_of_eq h1.symm, le_of_eq h2.symm⟩
  | sLub o a b =>
    dsimp only [applyStoreOp]
    cases hm : s.lub_regions o a b with
    | none =>
      simp only [Option.map_none', Option.getD_none]
      exact ⟨le_refl _, le_refl _⟩
    | some p =>
      simp only [Option.map_some', Option.getD_some]
      obtain ⟨h1, h2⟩ := lub_regions_counts s o a b p.1 p.2 (by rw [hm])
      exact ⟨le_of_eq h1.symm, le_of_eq h2.symm⟩
  | sGlb o a b =>
    dsimp only [applyStoreOp]
    cases hm : s.glb_regions o a b with
    | none =>
      simp only [Option.map_none', Option.getD_none]
      exact ⟨le_refl _, le_refl _⟩
    | some p =>
      simp only [Option.map_some', Option.getD_some]
      obtain ⟨h1, h2⟩ := glb_regions_counts s o a b p.1 p.2 (by rw [hm])
      exact ⟨le_of_eq h1.symm, le_of_eq h2.symm⟩
  | sStartSnapshot =>
    dsimp only [applyStoreOp]
    obtain ⟨h1, h2⟩ := start_snapshot_counts s
    exact ⟨le_of_eq h1.symm, le_of_eq h2.symm⟩
  | sCommit => exact ⟨le_refl _, le_refl _⟩
  | sRollback n =>
    dsimp only [applyStoreOp]
    obtain ⟨h1, h2⟩ := rollback_to_counts n s
    exact ⟨le_of_eq h1.symm, le_of_eq h2.symm⟩

/-- No operation sequence ever decreases either counter. -/
theorem applyStoreOps_counts_mono (ops : List StoreOp) :
    ∀ s : RegionVarBindings,
      s.skolemization_count ≤ (applyStoreOps s ops).skolemization_count ∧
      s.bound_count ≤ (applyStoreOps s ops).bound_count := by
  induction ops with
  | nil => exact fun s => ⟨le_refl _, le_refl _⟩
  | cons op rest ih =>
    intro s
    obtain ⟨h1, h2⟩ := applyStoreOp_counts_mono s op
    obtain ⟨g1, g2⟩ := ih (applyStoreOp s op)
    exact ⟨h1.trans g1, h2.trans g2⟩

/-- C10: `rollback_to` leaves the skolemization and fresh-bound counters
unchanged, `new_skolemized` and `new_bound` write no undo-log entries,
and since no store operation (rollbacks included) ever decreases either
counter, a skolem or fresh-bound name minted after any further activity
differs from each one minted before. -/
theorem C10_rollback_counters_fresh :
    (∀ (s : RegionVarBindings) (n : Nat),
      (RegionVarBindings.rollback_to n s).skolemization_count =
        s.skolemization_count ∧
      (RegionVarBindings.rollback_to n s).bound_count = s.bound_count) ∧
    (∀ (s : RegionVarBindings) (br : BoundRegion),
      (s.new_skolemized br).2.undo_log = s.undo_log ∧
      s.new_bound.2.undo_log = s.undo_log) ∧
    (∀ (s : RegionVarBindings) (ops : List StoreOp) (br br2 : BoundRegion),
      ((applyStoreOps (s.new_skolemized br).2 ops).new_skolemized br2).1 ≠
        (s.new_skolemized br).1) ∧
    (∀ (s : RegionVarBindings) (ops : List StoreOp),
      ((applyStoreOps s.new_bound.2 ops).new_bound).1 ≠ s.new_bound.1) := by
  refine ⟨fun s n => rollback_to_counts n s, fun s br => ⟨rfl, rfl⟩, ?_, ?_⟩
  · intro s ops br br2
    have h := (applyStoreOps_counts_mono ops (s.new_skolemized br).2).1
    simp only [RegionVarBindings.new_skolemized] at h ⊢
    simp only [Region.re_skolemized.injEq, ne_eq, not_and]
    intro hk
    omega
  · intro s ops
    have h := (applyStoreOps_counts_mono ops s.new_bound.2).2
    simp only [RegionVarBindings.new_bound] at h ⊢
    simp only [Region.re_bound.injEq, BoundRegion.br_fresh.injEq, ne_eq]
    omega

/-! # Claim C9 -/

/-- `consider_adding_edge` only ever appends to the result set. -/
theorem consider_adding_edge_append (rs : List Region) (r r1 r2 : Region) :
    ∃ t, consider_adding_edge rs r r1 r2 = rs ++ t := by
  unfold consider_adding_edge
  by_cases h1 : r = r1
  · simp only [h1, if_true]
    by_cases h2 : rs.any (fun x => decide (x = r2))
    · exact ⟨[], by simp [h2]⟩
    · exact ⟨[r2], by simp [h2]⟩
  · exact ⟨[], by simp [h1]⟩

/-- Unfolding the scan one undo-log entry at a time. -/
theorem taintedScan_cons (e : UndoLogEntry) (rest : List UndoLogEntry)
    (rs : List Region) (r : Region) :
    taintedScan (e :: rest) rs r =
      taintedScan rest
        (match constraintEndpoints e with
         | none => rs
         | some (r1, r2) =>
           consider_adding_edge (consider_adding_edge rs r r1 r2) r r2 r1)
        r := rfl

/-- The inner scan only ever appends to the result set. -/
theorem taintedScan_append (entries : List UndoLogEntry) :
    ∀ rs r, ∃ t, taintedScan entries rs r = rs ++ t := by
  induction entries with
  | nil => exact fun rs r => ⟨[], by simp [taintedScan]⟩
  | cons e rest ih =>
    intro rs r
    rw [taintedScan_cons]
    cases he : constraintEndpoints e with
    | none => exact ih rs r
    | some p =>
      obtain ⟨p1, p2⟩ := p
      dsimp only
      obtain ⟨t1, ht1⟩ := consider_adding_edge_append rs r p1 p2
      obtain ⟨t2, ht2⟩ := consider_adding_edge_append
        (consider_adding_edge rs r p1 p2) r p2 p1
      obtain ⟨t3, ht3⟩ := ih
        (consider_adding_edge (consider_adding_edge rs r p1 p2) r p2 p1) r
      refine ⟨t1 ++ (t2 ++ t3), ?_⟩
      rw [ht3, ht2, ht1]
      simp [List.append_assoc]

/-- If the scanned region sits on one side of an edge, the other side is
in the scan's output. -/
theorem consider_adding_edge_mem (rs : List Region) (r r1 r2 : Region)
    (h : r = r1) : r2 ∈ consider_adding_edge rs r r1 r2 := by
  unfold consider_adding_edge
  simp only [h, if_true]
  by_cases h2 : rs.any (fun x => decide (x = r2))
  · simp only [h2, if_true]
    simpa [List.any_eq_true] using h2
  · simp [h2]

/-- After scanning a region, every relevant edge touching it has its
other endpoint in the output. -/
theorem taintedScan_closed (entries : List UndoLogEntry) :
    ∀ rs r, taintClosedAt entries (taintedScan entries rs r) r := by
  induction entries with
  | nil => intro rs r e he; simp at he
  | cons e0 rest ih =>
    intro rs r e he r1 r2 hend
    rw [taintedScan_cons]
    rcases List.mem_cons.mp he with he0 | heR
    · subst he0
      rw [hend]
      dsimp only
      obtain ⟨t3, ht3⟩ := taintedScan_append rest
        (consider_adding_edge (consider_adding_edge rs r r1 r2) r r2 r1) r
      rw [ht3]
      constructor
      · intro hr
        obtain ⟨t2, ht2⟩ :=
          consider_adding_edge_append (consider_adding_edge rs r r1 r2)
            r r2 r1
        rw [ht2]
        have hm := consider_adding_edge_mem rs r r1 r2 hr
        exact List.mem_append_left _ (List.mem_append_left _ hm)
      · intro hr
        have hm := consider_adding_edge_mem
          (consider_adding_edge rs r r1 r2) r r2 r1 hr
        exact List.mem_append_left _ hm
    · exact ih _ r e heR r1 r2 hend

/-- Closure facts are monotone under extending the result set. -/
theorem taintClosedAt_mono (entries : List UndoLogEntry)
    (rs t : List Region) (r : Region) (h : taintClosedAt entries rs r) :
    taintClosedAt entries (rs ++ t) r := by
  intro e he r1 r2 hend
  obtain ⟨h1, h2⟩ := h e he r1 r2 hend
  exact ⟨fun hr => List.mem_append_left _ (h1 hr),
         fun hr => List.mem_append_left _ (h2 hr)⟩

/-- The worklist loop invariant: when the loop drains, the result extends
the input and every member of the result has been scanned. -/
theorem taintedLoop_closure (entries : List UndoLogEntry) :
    ∀ (fuel : Nat) (rs : List Region) (i : Nat) (l : List Region),
      taintedLoop entries fuel rs i = some l →
      (∀ x ∈ rs.take i, taintClosedAt entries rs x) →
      (∃ t, l = rs ++ t) ∧ ∀ x ∈ l, taintClosedAt entries l x := by
  intro fuel
  induction fuel with
  | zero =>
    intro rs i l h hinv
    unfold taintedLoop at h
    split at h
    · exact absurd h (by simp)
    · rename_i hge
      simp only [Option.some.injEq] at h
      subst h
      refine ⟨⟨[], by simp⟩, ?_⟩
      intro x hx
      refine hinv x ?_
      rw [List.take_of_length_le (by omega)]
      exact hx
  | succ fuel ih =>
    intro rs i l h hinv
    unfold taintedLoop at h
    split at h
    · rename_i hlt
      have hinv2 : ∀ x ∈ (taintedScan entries rs (rs.get ⟨i, hlt⟩)).take
          (i + 1), taintClosedAt entries
          (taintedScan entries rs (rs.get ⟨i, hlt⟩)) x := by
        obtain ⟨t, ht⟩ := taintedScan_append entries rs (rs.get ⟨i, hlt⟩)
        intro x hx
        rw [ht, List.take_append_of_le_length (by omega)] at hx
        rw [List.take_succ] at hx
        rcases List.mem_append.mp hx with h1 | h2
        · rw [ht]
          exact taintClosedAt_mono entries rs t x (hinv x h1)
        · have hx2 : x = rs.get ⟨i, hlt⟩ := by
            rw [List.getElem?_eq_getElem hlt] at h2
            simpa [List.get_eq_getElem] using h2
          subst hx2
          exact taintedScan_closed entries rs _
      obtain ⟨⟨t2, ht2⟩, hcl⟩ := ih _ (i + 1) l h hinv2
      obtain ⟨t, ht⟩ := taintedScan_append entries rs (rs.get ⟨i, hlt⟩)
      exact ⟨⟨t ++ t2, by rw [ht2, ht, List.append_assoc]⟩, hcl⟩
    · rename_i hge
      simp only [Option.some.injEq] at h
      subst h
      refine ⟨⟨[], by simp⟩, ?_⟩
      intro x hx
      refine hinv x ?_
      rw [List.take_of_length_le (by omega)]
      exact hx

/-- C9: whenever the taint worklist drains, the returned list has `r0` as
its first entry and is closed under the symmetric closure of the
constraints logged at undo-log indices at or above the snapshot (variable
endpoints lifted to `Var` region values). -/
theorem C9_tainted_closure (s : RegionVarBindings) (snapshot fuel : Nat)
    (r0 : Region) (l : List Region)
    (h : tainted fuel s snapshot r0 = some l) :
    l.head? = some r0 ∧
    ∀ e ∈ relevantEntries s snapshot, ∀ r1 r2,
      constraintEndpoints e = some (r1, r2) →
      (r1 ∈ l → r2 ∈ l) ∧ (r2 ∈ l → r1 ∈ l) := by
  obtain ⟨⟨t, ht⟩, hcl⟩ :=
    taintedLoop_closure (relevantEntries s snapshot) fuel [r0] 0 l h
      (by intro x hx; simp at hx)
  constructor
  · rw [ht]; rfl
  · intro e he r1 r2 hend
    constructor
    · intro h1
      exact ((hcl r1 h1) e he r1 r2 hend).1 rfl
    · intro h2
      exact ((hcl r2 h2) e he r1 r2 hend).2 rfl

/-! # Claim C4 -/

/-- `natCmp` answers `eq` exactly on equal numbers. -/
theorem natCmp_eq_iff (a b : Nat) : natCmp a b = .eq ↔ a = b := by
  unfold natCmp
  split <;> rename_i h1
  · constructor
    · intro h; cases h
    · omega
  · split <;> rename_i h2
    · constructor
      · intro h; cases h
      · omega
    · constructor
      · intro _; omega
      · intro _; rfl

/-- `natCmp` reverses `lt` into `gt` under argument swap. -/
theorem natCmp_lt_iff (a b : Nat) : natCmp a b = .lt ↔ natCmp b a = .gt := by
  unfold natCmp
  constructor
  · intro h
    split at h <;> rename_i h1
    · simp only [if_neg (by omega : ¬ b < a), if_pos h1]
    · split at h <;> cases h
  · intro h
    split at h <;> rename_i h1
    · cases h
    · split at h <;> rename_i h2
      · simp [h2]
      · cases h

/-- `frCmp` answers `eq` exactly on equal free regions. -/
theorem frCmp_eq_iff (a b : FreeRegion) : frCmp a b = .eq ↔ a = b := by
  unfold frCmp
  cases hs : natCmp a.scope_id b.scope_id with
  | eq =>
    have hse := (natCmp_eq_iff _ _).mp hs
    constructor
    · intro h
      have hte := (natCmp_eq_iff _ _).mp h
      cases a; cases b
      simp_all
    · intro h
      subst h
      exact (natCmp_eq_iff _ _).mpr rfl
  | lt =>
    constructor
    · intro h; cases h
    · intro h
      subst h
      rw [(natCmp_eq_iff a.scope_id a.scope_id).mpr rfl] at hs
      cases hs
  | gt =>
    constructor
    · intro h; cases h
    · intro h
      subst h
      rw [(natCmp_eq_iff a.scope_id a.scope_id).mpr rfl] at hs
      cases hs

/-- `frCmp` reverses `lt` into `gt` under argument swap. -/
theorem frCmp_lt_iff (a b : FreeRegion) : frCmp a b = .lt ↔ frCmp b a = .gt := by
  unfold frCmp
  cases hs : natCmp a.scope_id b.scope_id with
  | eq =>
    rw [(natCmp_eq_iff _ _).mp hs]
    rw [(natCmp_eq_iff b.scope_id b.scope_id).mpr rfl]
    exact natCmp_lt_iff _ _
  | lt =>
    rw [(natCmp_lt_iff _ _).mp hs]
    simp
  | gt =>
    have : natCmp b.scope_id a.scope_id = .lt := by
      rw [natCmp_lt_iff]; exact hs
    rw [this]
    simp

/-- `lub_free_regions` is order-agnostic (argument canonicalization). -/
theorem lub_free_regions_symm (rm : RegionMaps) (a b : FreeRegion) :
    lub_free_regions rm a b = lub_free_regions rm b a := by
  unfold lub_free_regions
  cases hc : frCmp a b with
  | lt =>
    rw [show frCmp b a = .gt from (frCmp_lt_iff a b).mp hc]
  | gt =>
    rw [show frCmp b a = .lt from (frCmp_lt_iff b a).mpr hc]
  | eq =>
    rw [(frCmp_eq_iff a b).mp hc,
      (frCmp_eq_iff b b).mpr rfl]

/-- `glb_free_regions` is order-agnostic (argument canonicalization). -/
theorem glb_free_regions_symm (rm : RegionMaps) (a b : FreeRegion) :
    glb_free_regions rm a b = glb_free_regions rm b a := by
  unfold glb_free_regions
  cases hc : frCmp a b with
  | lt =>
    rw [show frCmp b a = .gt from (frCmp_lt_iff a b).mp hc]
  | gt =>
    rw [show frCmp b a = .lt from (frCmp_lt_iff b a).mpr hc]
  | eq =>
    rw [(frCmp_eq_iff a b).mp hc,
      (frCmp_eq_iff b b).mpr rfl]

/-- The shared "identical or nothing" arm of the LUB is symmetric. -/
theorem lub_ite_symm (x y : Region) :
    (if x = y then x else Region.re_static) =
      (if y = x then y else Region.re_static) := by
  rcases eq_or_ne x y with h | h
  · subst h; rfl
  · rw [if_neg h, if_neg (Ne.symm h)]

/-- LUB over concrete regions is order-agnostic, given a symmetric
ancestor oracle. -/
theorem lub_concrete_regions_symm (rm : RegionMaps)
    (hnca : ∀ x y, rm.nearest_common_ancestor x y =
      rm.nearest_common_ancestor y x)
    (a b : Region) (ha : a.isVar = false) (hb : b.isVar = false) :
    lub_concrete_regions rm a b = lub_concrete_regions rm b a := by
  cases a <;> cases b <;>
    first
      | rfl
      | (simp_all only [Region.isVar]; done)
      | exact congrArg some (lub_ite_symm _ _)
      | exact congrArg some (lub_free_regions_symm rm _ _)
      | (simp only [lub_concrete_regions]; rw [hnca])

/-- The "identical or no overlap" arm of the GLB has order-agnostic
outcomes (the error payloads swap their regions). -/
theorem glb_ite_symm_outcomes (x y : Region) :
    (∀ r, (some (if x = y then CRes.ok x
          else CRes.err (.terr_regions_no_overlap y x)) =
        some (CRes.ok r) ↔
      some (if y = x then CRes.ok y
          else CRes.err (.terr_regions_no_overlap x y)) =
        some (CRes.ok r))) ∧
    ((∃ e, some (if x = y then CRes.ok x
          else CRes.err (.terr_regions_no_overlap y x)) =
        some (CRes.err e)) ↔
      (∃ e, some (if y = x then CRes.ok y
          else CRes.err (.terr_regions_no_overlap x y)) =
        some (CRes.err e))) := by
  rcases eq_or_ne x y with h | h
  · subst h; exact ⟨fun r => Iff.rfl, Iff.rfl⟩
  · rw [if_neg h, if_neg (Ne.symm h)]
    constructor
    · intro r
      constructor <;> (intro hh; simp at hh)
    · constructor <;> (intro _; exact ⟨_, rfl⟩)

/-- GLB over concrete regions succeeds symmetrically with the same
region, and fails symmetrically (with the payload regions swapped),
given a symmetric ancestor oracle. -/
theorem glb_concrete_regions_symm (rm : RegionMaps)
    (hnca : ∀ x y, rm.nearest_common_ancestor x y =
      rm.nearest_common_ancestor y x)
    (a b : Region) (ha : a.isVar = false) (hb : b.isVar = false) :
    (∀ r, glb_concrete_regions rm a b = some (.ok r) ↔
      glb_concrete_regions rm b a = some (.ok r)) ∧
    ((∃ e, glb_concrete_regions rm a b = some (.err e)) ↔
      (∃ e, glb_concrete_regions rm b a = some (.err e))) := by
  cases a <;> cases b <;>
    try first
      | exact ⟨fun r => Iff.rfl, Iff.rfl⟩
      | (simp_all only [Region.isVar]; done)
      | exact glb_ite_symm_outcomes _ _
  case re_free.re_free f1 f2 =>
    simp only [glb_concrete_regions]
    rw [glb_free_regions_symm rm f1 f2]
    exact ⟨fun r => Iff.rfl, by trivial⟩
  case re_free.re_scope fr s =>
    cases hm : rm.nearest_common_ancestor fr.scope_id s with
    | none =>
      simp only [glb_concrete_regions, hm]
      exact ⟨fun r => by constructor <;> (intro hh; simp at hh),
        by constructor <;> (intro _; exact ⟨_, rfl⟩)⟩
    | some r_id =>
      by_cases hr : r_id = fr.scope_id
      · simp only [glb_concrete_regions, hm, if_pos hr]
        exact ⟨by simp, by simp⟩
      · simp only [glb_concrete_regions, hm, if_neg hr]
        exact ⟨fun r => by constructor <;> (intro hh; simp at hh),
          by constructor <;> (intro _; exact ⟨_, rfl⟩)⟩
  case re_scope.re_free s fr =>
    cases hm : rm.nearest_common_ancestor fr.scope_id s with
    | none =>
      simp only [glb_concrete_regions, hm]
      exact ⟨fun r => by constructor <;> (intro hh; simp at hh),
        by constructor <;> (intro _; exact ⟨_, rfl⟩)⟩
    | some r_id =>
      by_cases hr : r_id = fr.scope_id
      · simp only [glb_concrete_regions, hm, if_pos hr]
        exact ⟨by simp, by simp⟩
      · simp only [glb_concrete_regions, hm, if_neg hr]
        exact ⟨fun r => by constructor <;> (intro hh; simp at hh),
          by constructor <;> (intro _; exact ⟨_, rfl⟩)⟩
  case re_scope.re_scope s1 s2 =>
    simp only [glb_concrete_regions, intersect_scopes, ← hnca s1 s2]
    cases hm : rm.nearest_common_ancestor s1 s2 with
    | none =>
      simp only [hm]
      exact ⟨fun r => by constructor <;> (intro hh; simp at hh),
        by constructor <;> (intro _; exact ⟨_, rfl⟩)⟩
    | some r_id =>
      simp only [hm]
      by_cases h1 : s1 = r_id <;> by_cases h2 : s2 = r_id
      · have hs : s1 = s2 := h1.trans h2.symm
        subst hs
        exact ⟨fun r => Iff.rfl, by trivial⟩
      · simp only [if_pos h1, if_neg h2]
        exact ⟨by simp, by simp⟩
      · simp only [if_neg h1, if_pos h2]
        exact ⟨by simp, by simp⟩
      · simp only [if_neg h1, if_neg h2]
        exact ⟨fun r => by constructor <;> (intro hh; simp at hh),
          by constructor <;> (intro _; exact ⟨_, rfl⟩)⟩

/-- C4 (counterexample): for two distinct skolemized regions the two GLB
orders both fail, but with different failure values (the payload regions
are swapped), so the two outcomes are not equal. -/
theorem C4_counterexample :
    glb_concrete_regions rmSmall skolemA skolemB =
      some (.err (.terr_regions_no_overlap skolemB skolemA)) ∧
    glb_concrete_regions rmSmall skolemB skolemA =
      some (.err (.terr_regions_no_overlap skolemA skolemB)) ∧
    glb_concrete_regions rmSmall skolemA skolemB ≠
      glb_concrete_regions rmSmall skolemB skolemA := by
  refine ⟨by decide, by decide, by decide⟩

/-- C4 (amended): for concrete regions (and a symmetric ancestor oracle)
`LUB(a,b) = LUB(b,a)`; `GLB(a,b)` and `GLB(b,a)` succeed together with
the same region and fail together, though the failure values carry their
two regions in swapped order. -/
theorem C4_amended (rm : RegionMaps)
    (hnca : ∀ x y, rm.nearest_common_ancestor x y =
      rm.nearest_common_ancestor y x)
    (a b : Region) (ha : a.isVar = false) (hb : b.isVar = false) :
    lub_concrete_regions rm a b = lub_concrete_regions rm b a ∧
    (∀ r, glb_concrete_regions rm a b = some (.ok r) ↔
      glb_concrete_regions rm b a = some (.ok r)) ∧
    ((∃ e, glb_concrete_regions rm a b = some (.err e)) ↔
      (∃ e, glb_concrete_regions rm b a = some (.err e))) := by
  obtain ⟨g1, g2⟩ := glb_concrete_regions_symm rm hnca a b ha hb
  exact ⟨lub_concrete_regions_symm rm hnca a b ha hb, g1, g2⟩

/-- Witness for C4 (amended) on concrete scope regions. -/
theorem C4_amended_witness :
    lub_concrete_regions rmSmall (.re_scope 1) (.re_scope 2) =
      lub_concrete_regions rmSmall (.re_scope 2) (.re_scope 1) ∧
    (∀ r, glb_concrete_regions rmSmall (.re_scope 1) (.re_scope 2) =
        some (.ok r) ↔
      glb_concrete_regions rmSmall (.re_scope 2) (.re_scope 1) =
        some (.ok r)) ∧
    ((∃ e, glb_concrete_regions rmSmall (.re_scope 1) (.re_scope 2) =
        some (.err e)) ↔
      (∃ e, glb_concrete_regions rmSmall (.re_scope 2) (.re_scope 1) =
        some (.err e))) :=
  C4_amended rmSmall (fun x y => rfl) (.re_scope 1) (.re_scope 2) rfl rfl

/-- Witness for C9 at the concrete snapshot store: the walk over
`Scope(5) <= $0` and `$0 <= $1` from seed `$0`. -/
theorem C9_witness :
    ([Region.re_var 0, Region.re_scope 5,
        Region.re_var 1] : List Region).head? = some (Region.re_var 0) ∧
    ∀ e ∈ relevantEntries storeTaint 0, ∀ r1 r2,
      constraintEndpoints e = some (r1, r2) →
      (r1 ∈ ([Region.re_var 0, Region.re_scope 5,
          Region.re_var 1] : List Region) →
        r2 ∈ ([Region.re_var 0, Region.re_scope 5,
          Region.re_var 1] : List Region)) ∧
      (r2 ∈ ([Region.re_var 0, Region.re_scope 5,
          Region.re_var 1] : List Region) →
        r1 ∈ ([Region.re_var 0, Region.re_scope 5,
          Region.re_var 1] : List Region)) :=
  C9_tainted_closure storeTaint 0 10 (Region.re_var 0)
    [Region.re_var 0, Region.re_scope 5, Region.re_var 1] (by decide)

/-! # Claim C2 -/

/-- Keys of a removal are the filtered keys. -/
theorem alistKeys_remove {α β : Type} [DecidableEq α]
    (m : List (α × β)) (k : α) :
    alistKeys (alistRemove m k) =
      (alistKeys m).filter (fun x => decide (x ≠ k)) := by
  unfold alistKeys alistRemove
  rw [List.filter_map]
  rfl

/-- Replacing the value at a key preserves the key list. -/
theorem alistKeys_replace {α β : Type} [DecidableEq α]
    (m : List (α × β)) (k : α) (v : β) :
    alistKeys (m.map (fun p => if p.1 = k then (k, v) else p)) =
      alistKeys m := by
  unfold alistKeys
  rw [List.map_map]
  congr 1
  funext p
  by_cases hp : p.1 = k
  · simp [Function.comp, hp]
  · simp [Function.comp, hp]

/-- A key that cannot be found heads no binding. -/
theorem alistLookup_none_not_mem {α β : Type} [DecidableEq α]
    (m : List (α × β)) (k : α) (h : alistLookup m k = none) :
    ∀ p ∈ m, p.1 ≠ k := by
  induction m with
  | nil => intro p hp; simp at hp
  | cons q rest ih =>
    intro p hp
    simp only [alistLookup] at h
    by_cases hq : q.1 = k
    · rw [if_pos hq] at h; cases h
    · rw [if_neg hq] at h
      rcases List.mem_cons.mp hp with h1 | h2
      · subst h1; exact hq
      · exact ih h p h2

/-- Removing a freshly appended binding restores the original map. -/
theorem alistRemove_append_fresh {α β : Type} [DecidableEq α]
    (m : List (α × β)) (k : α) (v : β) (h : alistLookup m k = none) :
    alistRemove (m ++ [(k, v)]) k = m := by
  unfold alistRemove
  rw [List.filter_append]
  have h2 : List.filter (fun p => decide (p.1 ≠ k)) [(k, v)] = [] := by
    simp
  rw [h2, List.append_nil]
  rw [List.filter_eq_self]
  intro p hp
  simpa using alistLookup_none_not_mem m k h p hp

/-- Undoing an entry acts identically on observably equal stores. -/
theorem obsStore_undoEntry_congr (x y : RegionVarBindings)
    (e : UndoLogEntry) (h : obsStore x = obsStore y) :
    obsStore (RegionVarBindings.undoEntry x e) =
      obsStore (RegionVarBindings.undoEntry y e) := by
  simp only [obsStore, Prod.mk.injEq] at h
  obtain ⟨h1, h2, h3, h4⟩ := h
  cases e with
  | Snapshot =>
    simp only [RegionVarBindings.undoEntry, obsStore, Prod.mk.injEq]
    exact ⟨h1, h2, h3, h4⟩
  | AddVar vid =>
    simp only [RegionVarBindings.undoEntry, obsStore, Prod.mk.injEq]
    refine ⟨?_, h2, h3, h4⟩
    simp only [RegionVarBindings.num_vars, List.length_dropLast]
    simp only [RegionVarBindings.num_vars] at h1
    omega
  | AddConstraint c =>
    simp only [RegionVarBindings.undoEntry, obsStore, Prod.mk.injEq]
    exact ⟨h1, by rw [alistKeys_remove, alistKeys_remove, h2], h3, h4⟩
  | AddCombination t tr =>
    cases t <;>
      simp only [RegionVarBindings.undoEntry, obsStore, Prod.mk.injEq] <;>
      exact ⟨h1, h2, by rw [h3], by rw [h4]⟩

/-- Folding undo steps acts identically on observably equal stores. -/
theorem obsStore_foldl_congr (l : List UndoLogEntry) :
    ∀ x y : RegionVarBindings, obsStore x = obsStore y →
      obsStore (l.foldl RegionVarBindings.undoEntry x) =
        obsStore (l.foldl RegionVarBindings.undoEntry y) := by
  induction l with
  | nil => exact fun x y h => h
  | cons e rest ih =>
    intro x y h
    exact ih _ _ (obsStore_undoEntry_congr x y e h)

/-- `UndoOk` composes. -/
theorem UndoOk_trans {s x y : RegionVarBindings} (h1 : UndoOk s x)
    (h2 : UndoOk x y) : UndoOk s y := by
  obtain ⟨p1, hl1, ho1⟩ := h1
  obtain ⟨p2, hl2, ho2⟩ := h2
  refine ⟨p2 ++ p1, by rw [hl2, hl1, List.append_assoc], ?_⟩
  rw [List.foldl_append]
  exact (obsStore_foldl_congr p1 _ _ ho2).trans ho1

/-- `UndoOk` is reflexive. -/
theorem UndoOk_refl (s : RegionVarBindings) : UndoOk s s := ⟨[], rfl, rfl⟩

/-- `add_constraint` under an open snapshot is undoable. -/
theorem add_constraint_undo (s : RegionVarBindings) (c : Constraint)
    (o : SubregionOrigin) (s2 : RegionVarBindings)
    (hs : s.in_snapshot = true) (h : s.add_constraint c o = some s2) :
    UndoOk s s2 := by
  have hlen : 0 < s.undo_log.length := by
    simpa [RegionVarBindings.in_snapshot] using hs
  unfold RegionVarBindings.add_constraint at h
  split at h
  · exact absurd h (by simp)
  · by_cases hc : alistContains s.constraints c
    · rw [show alistInsert s.constraints c o =
          (s.constraints.map (fun p => if p.1 = c then (c, o) else p), false)
          from by simp [alistInsert, hc]] at h
      simp only [Bool.false_and, Bool.false_eq_true, if_false,
        Option.some.injEq] at h
      subst h
      refine ⟨[], rfl, ?_⟩
      simp [obsStore, RegionVarBindings.num_vars, alistKeys_replace]
    · rw [show alistInsert s.constraints c o =
          (s.constraints ++ [(c, o)], true)
          from by simp [alistInsert, hc]] at h
      simp only [Bool.true_and, RegionVarBindings.in_snapshot,
        List.length_pos, decide_eq_true_eq] at h
      rw [if_pos (by simpa using List.length_pos.mp hlen)] at h
      simp only [Option.some.injEq] at h
      subst h
      refine ⟨[.AddConstraint c], rfl, ?_⟩
      have hnone : alistLookup s.constraints c = none := by
        unfold alistContains at hc
        cases hx : alistLookup s.constraints c with
        | none => rfl
        | some v => rw [hx] at hc; simp at hc
      simp [List.foldl, RegionVarBindings.undoEntry, obsStore,
        RegionVarBindings.num_vars, alistRemove_append_fresh _ _ _ hnone]

/-- `make_subregion` under an open snapshot is undoable. -/
theorem make_subregion_undo (s : RegionVarBindings) (o : SubregionOrigin)
    (sub sup : Region) (s2 : RegionVarBindings)
    (hs : s.in_snapshot = true)
    (h : s.make_subregion o sub sup = some s2) : UndoOk s s2 := by
  unfold RegionVarBindings.make_subregion at h
  split at h
  · exact absurd h (by simp)
  · split at h <;>
      first
        | exact add_constraint_undo _ _ _ _ hs h
        | exact absurd h (by simp)

/-- The lub/glb `relate` closures under an open snapshot are undoable. -/
theorem relateFor_undo (t : CombineMapType) (o : SubregionOrigin)
    (s : RegionVarBindings) (x y : Region) (s2 : RegionVarBindings)
    (hs : s.in_snapshot = true)
    (h : RegionVarBindings.relateFor t o s x y = some s2) : UndoOk s s2 := by
  cases t <;> exact make_subregion_undo _ _ _ _ _ hs h

/-- `new_region_var` under an open snapshot is undoable. -/
theorem new_region_var_undo (s : RegionVarBindings)
    (o : RegionVariableOrigin) (hs : s.in_snapshot = true) :
    UndoOk s (s.new_region_var o).2 := by
  have hlen : 0 < s.undo_log.length := by
    simpa [RegionVarBindings.in_snapshot] using hs
  refine ⟨[.AddVar s.num_vars], ?_, ?_⟩
  · simp [RegionVarBindings.new_region_var, RegionVarBindings.in_snapshot,
      hlen]
  · simp only [RegionVarBindings.new_region_var,
      RegionVarBindings.in_snapshot]
    rw [if_pos (by simpa using hlen)]
    simp [List.foldl, RegionVarBindings.undoEntry, obsStore,
      RegionVarBindings.num_vars, List.dropLast_concat]

/-- `combine_vars` (with the lub/glb relate closures) under an open
snapshot is undoable: the `AddVar`, `AddCombination` and `AddConstraint`
entries it pushes reverse, in LIFO order, exactly what it did. -/
theorem combine_vars_undo (s : RegionVarBindings) (t : CombineMapType)
    (a b : Region) (o : SubregionOrigin) (r1 : Region)
    (s5 : RegionVarBindings) (hs : s.in_snapshot = true)
    (h : s.combine_vars t a b o (RegionVarBindings.relateFor t o) =
      some (r1, s5)) :
    UndoOk s s5 := by
  have hlen : 0 < s.undo_log.length := by
    simpa [RegionVarBindings.in_snapshot] using hs
  unfold RegionVarBindings.combine_vars at h
  dsimp only at h
  cases hl : alistLookup (s.combine_map_get t) { a := a, b := b } with
  | some c =>
    rw [hl] at h
    simp only [Option.some.injEq, Prod.mk.injEq] at h
    obtain ⟨-, hz⟩ := h
    subst hz
    exact UndoOk_refl s
  | none =>
    rw [hl] at h
    cases t <;>
    · simp only [RegionVarBindings.combine_map_get] at hl
      simp [RegionVarBindings.new_region_var,
        RegionVarBindings.combine_map_set, RegionVarBindings.combine_map_get,
        RegionVarBindings.in_snapshot, hlen] at h
      split at h
      · exact absurd h (by simp)
      · rename_i s4 hr1
        split at h
        · exact absurd h (by simp)
        · rename_i s5x hr2
          simp only [Option.some.injEq, Prod.mk.injEq] at h
          obtain ⟨-, hz⟩ := h
          subst hz
          have hu34 := relateFor_undo _ _ _ _ _ _
            (by simp [RegionVarBindings.in_snapshot]) hr1
          have hs4 : s4.in_snapshot = true := by
            obtain ⟨p, hp, -⟩ := hu34
            simp only [RegionVarBindings.in_snapshot, hp,
              List.length_append, List.length_cons, decide_eq_true_eq]
            omega
          have hu45 := relateFor_undo _ _ _ _ _ _ hs4 hr2
          refine UndoOk_trans (UndoOk_trans ?_ hu34) hu45
          refine ⟨[.AddCombination _ { a := a, b := b },
            .AddVar s.num_vars], rfl, ?_⟩
          simp [List.foldl, RegionVarBindings.undoEntry, obsStore,
            RegionVarBindings.num_vars, List.dropLast_concat,
            alistRemove_append_fresh _ _ _ hl]

/-- Building activity preserves the open snapshot. -/
theorem UndoOk_in_snapshot {s s2 : RegionVarBindings} (h : UndoOk s s2)
    (hs : s.in_snapshot = true) : s2.in_snapshot = true := by
  obtain ⟨p, hp, -⟩ := h
  have hlen : 0 < s.undo_log.length := by
    simpa [RegionVarBindings.in_snapshot] using hs
  simp only [RegionVarBindings.in_snapshot, hp, List.length_append,
    decide_eq_true_eq]
  omega

/-- Every building operation under an open snapshot is undoable. -/
theorem applyBuildOp_undo (s : RegionVarBindings) (op : BuildOp)
    (hs : s.in_snapshot = true) : UndoOk s (applyBuildOp s op) := by
  cases op with
  | opNewVar o => exact new_region_var_undo s o hs
  | opMakeSub o sub sup =>
    dsimp only [applyBuildOp]
    cases hm : s.make_subregion o sub sup with
    | none => simp only [Option.getD_none]; exact UndoOk_refl s
    | some s2 =>
      simp only [Option.getD_some]
      exact make_subregion_undo _ _ _ _ _ hs hm
  | opCombine t o a b =>
    dsimp only [applyBuildOp]
    cases hm : s.combine_vars t a b o (RegionVarBindings.relateFor t o) with
    | none => exact UndoOk_refl s
    | some p => exact combine_vars_undo s t a b o p.1 p.2 hs (by rw [hm])

/-- Any sequence of building operations under an open snapshot is
undoable. -/
theorem applyBuildOps_undo (ops : List BuildOp) :
    ∀ s : RegionVarBindings, s.in_snapshot = true →
      UndoOk s (applyBuildOps s ops) := by
  induction ops with
  | nil => exact fun s _ => UndoOk_refl s
  | cons op rest ih =>
    intro s hs
    have h1 := applyBuildOp_undo s op hs
    exact UndoOk_trans h1 (ih _ (UndoOk_in_snapshot h1 hs))

/-- The observable store ignores the undo log. -/
theorem obsStore_set_log (x : RegionVarBindings) (l : List UndoLogEntry) :
    obsStore { x with undo_log := l } = obsStore x := rfl

/-- C2: starting from a store with no snapshot open, any sequence of
`new_var` / `make_subregion` / `combine_vars` operations followed by
`rollback_to` at the depth `start_snapshot` returned restores the
observable store (variable count, constraint set, LUB and GLB memo
tables). -/
theorem C2_snapshot_rollback (s0 : RegionVarBindings)
    (h : s0.undo_log = []) (ops : List BuildOp) :
    obsStore (RegionVarBindings.rollback_to s0.start_snapshot.1
      (applyBuildOps s0.start_snapshot.2 ops)) = obsStore s0 := by
  have hsnap : s0.start_snapshot =
      (0, { s0 with undo_log := [.Snapshot] }) := by
    simp [RegionVarBindings.start_snapshot, RegionVarBindings.in_snapshot, h]
  rw [hsnap]
  have hs1snap :
      ({ s0 with undo_log := [.Snapshot] } :
        RegionVarBindings).in_snapshot = true := by
    simp [RegionVarBindings.in_snapshot]
  obtain ⟨pre, hlog, hobs⟩ :=
    applyBuildOps_undo ops { s0 with undo_log := [.Snapshot] } hs1snap
  unfold RegionVarBindings.rollback_to
  rw [hlog]
  simp only [Nat.sub_zero, List.take_length, List.foldl_append]
  rw [obsStore_set_log]
  have hsnapstep : ∀ x : RegionVarBindings,
      ([UndoLogEntry.Snapshot].foldl RegionVarBindings.undoEntry x) = x :=
    fun x => rfl
  rw [hsnapstep]
  exact hobs.trans rfl

/-- Witness for C2: a concrete build sequence (new var, subregion
constraint, LUB combination) under a snapshot on the empty store rolls
back to the empty store's observables. -/
theorem C2_witness :
    obsStore (RegionVarBindings.rollback_to emptyBindings.start_snapshot.1
      (applyBuildOps emptyBindings.start_snapshot.2
        [.opNewVar 4, .opMakeSub 9 (.re_scope 1) (.re_var 0),
         .opCombine .Lub 7 (.re_scope 1) (.re_scope 2)])) =
      obsStore emptyBindings :=
  C2_snapshot_rollback emptyBindings rfl
    [.opNewVar 4, .opMakeSub 9 (.re_scope 1) (.re_var 0),
     .opCombine .Lub 7 (.re_scope 1) (.re_scope 2)]

/-- Witness for C10 at concrete inputs: a rollback leaves the counters of
the concrete snapshot store unchanged, and skolem / fresh-bound names
minted after a rollback differ from those minted before it. -/
theorem C10_witness :
    ((RegionVarBindings.rollback_to 0 storeTaint).skolemization_count =
        storeTaint.skolemization_count ∧
      (RegionVarBindings.rollback_to 0 storeTaint).bound_count =
        storeTaint.bound_count) ∧
    ((applyStoreOps (emptyBindings.new_skolemized (.br_named 0)).2
          [.sRollback 0]).new_skolemized (.br_named 0)).1 ≠
      (emptyBindings.new_skolemized (.br_named 0)).1 ∧
    ((applyStoreOps emptyBindings.new_bound.2 [.sRollback 0]).new_bound).1 ≠
      emptyBindings.new_bound.1 :=
  ⟨C10_rollback_counters_fresh.1 storeTaint 0,
   C10_rollback_counters_fresh.2.2.1 emptyBindings [.sRollback 0]
     (.br_named 0) (.br_named 0),
   C10_rollback_counters_fresh.2.2.2 emptyBindings [.sRollback 0]⟩

/-! # Claims C1 and C7: solver machinery -/

/-- `runPass` is the fold of `passBody` starting unchanged. -/
theorem runPass_eq_foldl
    (step : List GraphNode → Constraint → Option (List GraphNode × Bool))
    (cs : List Constraint) (nodes : List GraphNode) :
    runPass step cs nodes = cs.foldl (passBody step) (some (nodes, false)) :=
  rfl

/-- Folding pass steps over a dead accumulator stays dead. -/
theorem passBody_foldl_none
    (step : List GraphNode → Constraint → Option (List GraphNode × Bool)) :
    ∀ cs : List Constraint, cs.foldl (passBody step) none = none := by
  intro cs
  induction cs with
  | nil => rfl
  | cons c rest ih => exact ih

/-- Once a pass has recorded a change, the flag never clears. -/
theorem passBody_foldl_true
    (step : List GraphNode → Constraint → Option (List GraphNode × Bool)) :
    ∀ (cs : List Constraint) (m : List GraphNode) (out : List GraphNode)
      (bout : Bool),
      cs.foldl (passBody step) (some (m, true)) = some (out, bout) →
      bout = true := by
  intro cs
  induction cs with
  | nil =>
    intro m out bout h
    simp only [List.foldl_nil, Option.some.injEq, Prod.mk.injEq] at h
    exact h.2.symm
  | cons c rest ih =>
    intro m out bout h
    rw [List.foldl_cons] at h
    cases hs : step m c with
    | none =>
      rw [show passBody step (some (m, true)) c = none from by
        simp [passBody, hs]] at h
      rw [passBody_foldl_none] at h
      cases h
    | some p =>
      rw [show passBody step (some (m, true)) c = some (p.1, true) from by
        simp [passBody, hs]] at h
      exact ih p.1 out bout h

/-- Every pass step refines a reflexive-transitive node relation, so a
whole pass does. -/
theorem passBody_foldl_rel
    (step : List GraphNode → Constraint → Option (List GraphNode × Bool))
    (Q : List GraphNode → List GraphNode → Prop)
    (Qrefl : ∀ m, Q m m)
    (Qtrans : ∀ {x y z}, Q x y → Q y z → Q x z)
    (hstep : ∀ m c m2 ch, step m c = some (m2, ch) → Q m m2) :
    ∀ (cs : List Constraint) (m : List GraphNode) (b : Bool)
      (out : List GraphNode) (bout : Bool),
      cs.foldl (passBody step) (some (m, b)) = some (out, bout) →
      Q m out := by
  intro cs
  induction cs with
  | nil =>
    intro m b out bout h
    simp only [List.foldl_nil, Option.some.injEq, Prod.mk.injEq] at h
    exact h.1 ▸ Qrefl m
  | cons c rest ih =>
    intro m b out bout h
    rw [List.foldl_cons] at h
    cases hs : step m c with
    | none =>
      rw [show passBody step (some (m, b)) c = none from by
        simp [passBody, hs]] at h
      rw [passBody_foldl_none] at h
      cases h
    | some p =>
      rw [show passBody step (some (m, b)) c = some (p.1, b || p.2) from by
        simp [passBody, hs]] at h
      exact Qtrans (hstep m c p.1 p.2 (by rw [hs])) (ih _ _ _ _ h)

/-- A pass that reports no change ran every step with a `false` change
flag; such steps refine `M` and establish the per-edge fact `P`, which is
`M`-stable, so the final nodes satisfy `P` for every edge. -/
theorem passBody_foldl_false_inv
    (step : List GraphNode → Constraint → Option (List GraphNode × Bool))
    (M : List GraphNode → List GraphNode → Prop)
    (P : List GraphNode → Constraint → Prop)
    (Mrefl : ∀ m, M m m)
    (Mtrans : ∀ {x y z}, M x y → M y z → M x z)
    (hstep : ∀ m c m2, step m c = some (m2, false) → M m m2 ∧ P m2 c)
    (hmono : ∀ m m2 c, M m m2 → P m c → P m2 c) :
    ∀ (cs : List Constraint) (m : List GraphNode) (out : List GraphNode),
      cs.foldl (passBody step) (some (m, false)) = some (out, false) →
      M m out ∧ ∀ c ∈ cs, P out c := by
  intro cs
  induction cs with
  | nil =>
    intro m out h
    simp only [List.foldl_nil, Option.some.injEq, Prod.mk.injEq] at h
    refine ⟨h.1 ▸ Mrefl m, ?_⟩
    intro c hc
    simp at hc
  | cons c rest ih =>
    intro m out h
    rw [List.foldl_cons] at h
    cases hs : step m c with
    | none =>
      rw [show passBody step (some (m, false)) c = none from by
        simp [passBody, hs]] at h
      rw [passBody_foldl_none] at h
      cases h
    | some p =>
      obtain ⟨m2, ch⟩ := p
      rw [show passBody step (some (m, false)) c = some (m2, ch) from by
        simp [passBody, hs]] at h
      cases ch with
      | true =>
        have := passBody_foldl_true step rest m2 out false h
        cases this
      | false =>
        obtain ⟨hM, hP⟩ := hstep m c m2 hs
        obtain ⟨hM2, hPall⟩ := ih m2 out h
        refine ⟨Mtrans hM hM2, ?_⟩
        intro c2 hc2
        rcases List.mem_cons.mp hc2 with h1 | h2
        · subst h1
          exact hmono _ _ _ hM2 hP
        · exact hPall c2 h2

/-- When the fixed-point loop stops, its output is the result of a pass
that reported no change, and the whole run refines any pass-stable
relation. -/
theorem iterate_inv
    (step : List GraphNode → Constraint → Option (List GraphNode × Bool))
    (cs : List Constraint)
    (Q : List GraphNode → List GraphNode → Prop)
    (Qrefl : ∀ m, Q m m)
    (Qtrans : ∀ {x y z}, Q x y → Q y z → Q x z)
    (hpass : ∀ m out ch, runPass step cs m = some (out, ch) → Q m out) :
    ∀ (fuel : Nat) (ns out : List GraphNode),
      iterate_until_fixed_point step cs fuel ns = some out →
      ∃ pre, Q ns pre ∧ runPass step cs pre = some (out, false) := by
  intro fuel
  induction fuel with
  | zero => intro ns out h; cases h
  | succ fuel ih =>
    intro ns out h
    unfold iterate_until_fixed_point at h
    cases hp : runPass step cs ns with
    | none => rw [hp] at h; cases h
    | some p =>
      obtain ⟨ns2, ch⟩ := p
      rw [hp] at h
      cases ch with
      | true =>
        obtain ⟨pre, hq, hlast⟩ := ih ns2 out h
        exact ⟨pre, Qtrans (hpass ns ns2 true hp) hq, hlast⟩
      | false =>
        simp only [Option.some.injEq] at h
        subst h
        exact ⟨ns, Qrefl ns, hp⟩

/-! ## List access helpers -/

/-- Reading past the end yields the default. -/
theorem getD_oob {α : Type} (l : List α) (i : Nat) (d : α)
    (h : l.length ≤ i) : l.getD i d = d := by
  rw [List.getD_eq_getElem?_getD, List.getElem?_eq_none h]
  rfl

/-- `set` then `getD` at the written (in-range) index. -/
theorem getD_set_self {α : Type} (l : List α) (i : Nat) (a d : α)
    (h : i < l.length) : (l.set i a).getD i d = a := by
  rw [List.getD_eq_getElem?_getD, List.getElem?_set_self h]
  rfl

/-- `set` then `getD` at a different index. -/
theorem getD_set_other {α : Type} (l : List α) (i j : Nat) (a d : α)
    (h : j ≠ i) : (l.set i a).getD j d = l.getD j d := by
  rw [List.getD_eq_getElem?_getD, List.getD_eq_getElem?_getD,
    List.getElem?_set_ne (fun e => h e.symm)]

/-- The value map of a node vector read through `getD`. -/
theorem mapValue_getD (ns : List GraphNode) (v : Nat) :
    (ns.map (fun n => n.value)).getD v .NoValue = nodeValue ns v := by
  rw [List.getD_eq_getElem?_getD, List.getElem?_map, nodeValue,
    List.getD_eq_getElem?_getD]
  cases ns[v]? <;> rfl

/-- A `nodeValue` other than `NoValue` certifies an in-range index. -/
theorem nodeValue_lt_length (ns : List GraphNode) (v : Nat)
    (h : nodeValue ns v ≠ .NoValue) : v < ns.length := by
  by_contra hge
  exact h (by rw [nodeValue, getD_oob _ _ _ (Nat.le_of_not_lt hge)]; rfl)

/-- `nodeValue` after `set` at the written in-range index. -/
theorem nodeValue_set_self (ns : List GraphNode) (v : Nat) (n : GraphNode)
    (h : v < ns.length) : nodeValue (ns.set v n) v = n.value := by
  rw [nodeValue, getD_set_self _ _ _ _ h]

/-- `nodeValue` after `set` at a different index. -/
theorem nodeValue_set_other (ns : List GraphNode) (v w : Nat) (n : GraphNode)
    (h : w ≠ v) : nodeValue (ns.set v n) w = nodeValue ns w := by
  rw [nodeValue, nodeValue, getD_set_other _ _ _ _ _ h]

/-- `nodeClass` after `set` at the written in-range index. -/
theorem nodeClass_set_self (ns : List GraphNode) (v : Nat) (n : GraphNode)
    (h : v < ns.length) : nodeClass (ns.set v n) v = n.classification := by
  rw [nodeClass, getD_set_self _ _ _ _ h]

/-- `nodeClass` after `set` at a different index. -/
theorem nodeClass_set_other (ns : List GraphNode) (v w : Nat) (n : GraphNode)
    (h : w ≠ v) : nodeClass (ns.set v n) w = nodeClass ns w := by
  rw [nodeClass, nodeClass, getD_set_other _ _ _ _ _ h]

/-! ## Stability relations: reflexivity and transitivity -/

/-- `expStable` is reflexive. -/
theorem expStable_refl (ns : List GraphNode) : expStable ns ns :=
  ⟨rfl, fun _ => rfl, fun _ h => h⟩

/-- `expStable` is transitive. -/
theorem expStable_trans {a b c : List GraphNode}
    (h1 : expStable a b) (h2 : expStable b c) : expStable a c :=
  ⟨h2.1.trans h1.1,
   fun v => (h2.2.1 v).trans (h1.2.1 v),
   fun v h => h2.2.2 v (h1.2.2 v h)⟩

/-- `errOnly` is reflexive. -/
theorem errOnly_refl (ns : List GraphNode) : errOnly ns ns :=
  fun _ => Or.inl rfl

/-- `errOnly` is transitive. -/
theorem errOnly_trans {a b c : List GraphNode}
    (h1 : errOnly a b) (h2 : errOnly b c) : errOnly a c := by
  intro v
  rcases h2 v with h | h
  · rw [h]; exact h1 v
  · exact Or.inr h

/-- `contStable` is reflexive. -/
theorem contStable_refl (ns : List GraphNode) : contStable ns ns :=
  ⟨fun _ => rfl, fun _ _ hnv => ⟨Or.inl rfl, hnv⟩⟩

/-- `contStable` is transitive. -/
theorem contStable_trans {a b c : List GraphNode}
    (h1 : contStable a b) (h2 : contStable b c) : contStable a c := by
  refine ⟨fun v => (h2.1 v).trans (h1.1 v), fun v hcl hnv => ?_⟩
  obtain ⟨hv1, hn1⟩ := h1.2 v hcl hnv
  have hcl2 : nodeClass b v = .Expanding := by rw [h1.1 v]; exact hcl
  obtain ⟨hv2, hn2⟩ := h2.2 v hcl2 hn1
  refine ⟨?_, hn2⟩
  rcases hv2 with h | h
  · rw [h]; exact hv1
  · exact Or.inr h

/-! ## Expansion: per-step analysis -/

/-- What `expand_node` guarantees when it reports no change: the value is
untouched, the node is (re)classified Expanding, and the value already
absorbs the lower bound (or is erroneous). -/
theorem expand_node_false (rm : RegionMaps) (r : Region) (n b2 : GraphNode)
    (h : expand_node rm r n = some (b2, false)) :
    b2.value = n.value ∧ b2.classification = .Expanding ∧
    n.value ≠ .NoValue ∧
    ((∃ cur, n.value = .Value cur ∧
        lub_concrete_regions rm r cur = some cur) ∨
      n.value = .ErrorValue) := by
  unfold expand_node at h
  dsimp only at h
  split at h
  · rename_i hv
    exact absurd (Option.some.inj h) (by simp)
  · rename_i cur hv
    split at h
    · exact Option.noConfusion h
    · rename_i lubv hl
      split at h
      · rename_i hlc
        subst hlc
        have hb := congrArg Prod.fst (Option.some.inj h)
        subst hb
        exact ⟨rfl, rfl, by rw [hv]; simp, Or.inl ⟨lubv, hv, hl⟩⟩
      · rename_i hlc
        exact absurd (Option.some.inj h) (by simp)
  · rename_i hv
    have hb := congrArg Prod.fst (Option.some.inj h)
    subst hb
    exact ⟨rfl, rfl, by rw [hv]; simp, Or.inr hv⟩

/-- A no-change expansion step keeps the node vector `expStable` and
establishes the expansion postcondition for its edge. -/
theorem expansionStep_false (rm : RegionMaps) (m : List GraphNode)
    (c : Constraint) (m2 : List GraphNode)
    (h : expansionStep rm m c = some (m2, false)) :
    expStable m m2 ∧ expPassPost rm m2 c := by
  cases c with
  | ConstrainRegSubVar r b =>
    simp only [expansionStep] at h
    cases he : expand_node rm r (m.getD b defaultGraphNode) with
    | none => rw [he] at h; cases h
    | some p =>
      obtain ⟨b2, ch⟩ := p
      rw [he] at h
      simp only [Option.some.injEq, Prod.mk.injEq] at h
      obtain ⟨hm2, hch⟩ := h
      subst hch
      obtain ⟨hval, hcls, hnnv, hcore⟩ := expand_node_false rm r _ _ he
      have hb : b < m.length := by
        by_contra hge
        rw [getD_oob _ _ _ (Nat.le_of_not_lt hge)] at hnnv
        exact hnnv rfl
      have hvb : nodeValue m2 b = nodeValue m b := by
        rw [← hm2, nodeValue_set_self _ _ _ hb, hval]; rfl
      have hstab : expStable m m2 := by
        refine ⟨by rw [← hm2, List.length_set], fun v => ?_, fun v hcl => ?_⟩
        · by_cases hvb2 : v = b
          · subst hvb2; exact hvb
          · rw [← hm2, nodeValue_set_other _ _ _ _ hvb2]
        · by_cases hvb2 : v = b
          · subst hvb2
            rw [← hm2, nodeClass_set_self _ _ _ hb, hcls]
          · rw [← hm2, nodeClass_set_other _ _ _ _ hvb2]; exact hcl
      refine ⟨hstab, ?_, ?_⟩
      · rcases hcore with ⟨cur, hcur, hl⟩ | herr
        · exact Or.inl ⟨cur, by rw [hvb, nodeValue, hcur], hl⟩
        · exact Or.inr (by rw [hvb, nodeValue, herr])
      · intro _
        rw [← hm2, nodeClass_set_self _ _ _ hb]
        exact hcls
  | ConstrainVarSubVar a b =>
    simp only [expansionStep] at h
    cases hv : (m.getD a defaultGraphNode).value with
    | NoValue =>
      rw [hv] at h
      simp only [Option.some.injEq, Prod.mk.injEq] at h
      rw [← h.1]
      exact ⟨expStable_refl m, trivial⟩
    | ErrorValue =>
      rw [hv] at h
      simp only [Option.some.injEq, Prod.mk.injEq] at h
      rw [← h.1]
      exact ⟨expStable_refl m, trivial⟩
    | Value ar =>
      rw [hv] at h
      dsimp only at h
      cases he : expand_node rm ar (m.getD b defaultGraphNode) with
      | none => rw [he] at h; cases h
      | some p =>
        obtain ⟨b2, ch⟩ := p
        rw [he] at h
        simp only [Option.some.injEq, Prod.mk.injEq] at h
        obtain ⟨hm2, hch⟩ := h
        subst hch
        obtain ⟨hval, hcls, hnnv, _⟩ := expand_node_false rm ar _ _ he
        have hb : b < m.length := by
          by_contra hge
          rw [getD_oob _ _ _ (Nat.le_of_not_lt hge)] at hnnv
          exact hnnv rfl
        refine ⟨⟨by rw [← hm2, List.length_set], fun v => ?_,
          fun v hcl => ?_⟩, trivial⟩
        · by_cases hvb2 : v = b
          · subst hvb2
            rw [← hm2, nodeValue_set_self _ _ _ hb, hval]; rfl
          · rw [← hm2, nodeValue_set_other _ _ _ _ hvb2]
        · by_cases hvb2 : v = b
          · subst hvb2
            rw [← hm2, nodeClass_set_self _ _ _ hb, hcls]
          · rw [← hm2, nodeClass_set_other _ _ _ _ hvb2]; exact hcl
  | ConstrainVarSubReg a r =>
    simp only [expansionStep, Option.some.injEq, Prod.mk.injEq] at h
    rw [← h.1]
    exact ⟨expStable_refl m, trivial⟩
  | ConstrainRegSubReg r1 r2 =>
    simp only [expansionStep, Option.some.injEq, Prod.mk.injEq] at h
    rw [← h.1]
    exact ⟨expStable_refl m, trivial⟩

/-- The expansion postcondition transfers along `expStable`. -/
theorem expPassPost_mono (rm : RegionMaps) (m m2 : List GraphNode)
    (c : Constraint) (hM : expStable m m2) (hp : expPassPost rm m c) :
    expPassPost rm m2 c := by
  cases c with
  | ConstrainRegSubVar r b =>
    obtain ⟨hcore, hcls⟩ := hp
    refine ⟨?_, ?_⟩
    · rcases hcore with ⟨cur, hcur, hl⟩ | herr
      · exact Or.inl ⟨cur, by rw [hM.2.1 b]; exact hcur, hl⟩
      · exact Or.inr (by rw [hM.2.1 b]; exact herr)
    · intro hlt
      rw [hM.1] at hlt
      exact hM.2.2 b (hcls hlt)
  | ConstrainVarSubVar a b => trivial
  | ConstrainVarSubReg a r => trivial
  | ConstrainRegSubReg r1 r2 => trivial

/-! ## Contraction: per-step analysis -/

/-- `contract_node` keeps the classification, never clears a value back to
`NoValue`, and only checks (never shrinks) the value of an Expanding
node. -/
theorem contract_node_classification (rm : RegionMaps) (n : GraphNode)
    (br : Region) (a2 : GraphNode) (ch : Bool)
    (h : contract_node rm n br = some (a2, ch)) :
    a2.classification = n.classification ∧
    (n.value ≠ .NoValue → a2.value ≠ .NoValue) ∧
    (n.classification = .Expanding → n.value ≠ .NoValue →
      (a2.value = n.value ∨ a2.value = .ErrorValue)) := by
  unfold contract_node at h
  split at h
  · rename_i hv
    have hb := congrArg Prod.fst (Option.some.inj h)
    subst hb
    exact ⟨rfl, fun hn => absurd hv hn, fun _ hn => absurd hv hn⟩
  · rename_i hv
    have hb := congrArg Prod.fst (Option.some.inj h)
    subst hb
    exact ⟨rfl, fun _ => by rw [hv]; simp, fun _ _ => Or.inl rfl⟩
  · rename_i ar hv
    split at h
    · split at h
      · have hb := congrArg Prod.fst (Option.some.inj h)
        subst hb
        exact ⟨rfl, fun _ => by rw [hv]; simp, fun _ _ => Or.inl rfl⟩
      · have hb := congrArg Prod.fst (Option.some.inj h)
        subst hb
        exact ⟨rfl, fun _ => by simp, fun _ _ => Or.inr rfl⟩
    · rename_i hcl
      split at h
      · exact Option.noConfusion h
      · rename_i g hg
        split at h
        · have hb := congrArg Prod.fst (Option.some.inj h)
          subst hb
          exact ⟨rfl, fun _ => by rw [hv]; simp,
            fun hce _ => absurd (hcl.symm.trans hce) (by simp)⟩
        · have hb := congrArg Prod.fst (Option.some.inj h)
          subst hb
          exact ⟨rfl, fun _ => by simp,
            fun hce _ => absurd (hcl.symm.trans hce) (by simp)⟩
      · have hb := congrArg Prod.fst (Option.some.inj h)
        subst hb
        exact ⟨rfl, fun _ => by simp,
          fun hce _ => absurd (hcl.symm.trans hce) (by simp)⟩

/-- What `contract_node` guarantees when it reports no change, given a
GLB oracle coherent with the outlives relation: the value is kept or
errored, and any surviving concrete value respects the upper bound. -/
theorem contract_node_false (rm : RegionMaps)
    (hglb : ∀ x y, glb_concrete_regions rm x y = some (.ok x) →
      rm.is_subregion_of x y = true)
    (n : GraphNode) (br : Region) (a2 : GraphNode)
    (h : contract_node rm n br = some (a2, false)) :
    (a2.value = n.value ∨ a2.value = .ErrorValue) ∧
    n.value ≠ .NoValue ∧
    (∀ ra, a2.value = .Value ra → rm.is_subregion_of ra br = true) := by
  unfold contract_node at h
  split at h
  · exact absurd (Option.some.inj h) (by simp)
  · rename_i hv
    have hb := congrArg Prod.fst (Option.some.inj h)
    subst hb
    exact ⟨Or.inl rfl, by rw [hv]; simp,
      fun ra hra => absurd (hv.symm.trans hra) (by simp)⟩
  · rename_i ar hv
    split at h
    · split at h
      · rename_i hsub
        have hb := congrArg Prod.fst (Option.some.inj h)
        subst hb
        refine ⟨Or.inl rfl, by rw [hv]; simp, fun ra hra => ?_⟩
        rw [hv] at hra
        cases hra
        exact hsub
      · have hb := congrArg Prod.fst (Option.some.inj h)
        subst hb
        exact ⟨Or.inr rfl, by rw [hv]; simp,
          fun ra hra => absurd hra (by simp)⟩
    · split at h
      · exact Option.noConfusion h
      · rename_i g hg
        split at h
        · rename_i hgeq
          have hb := congrArg Prod.fst (Option.some.inj h)
          subst hb
          refine ⟨Or.inl rfl, by rw [hv]; simp, fun ra hra => ?_⟩
          rw [hv] at hra
          subst hgeq
          cases hra
          exact hglb _ br hg
        · exact absurd (Option.some.inj h) (by simp)
      · have hb := congrArg Prod.fst (Option.some.inj h)
        subst hb
        exact ⟨Or.inr rfl, by rw [hv]; simp,
          fun ra hra => absurd hra (by simp)⟩

/-- Writing back a node that keeps its classification, never reverts to
`NoValue`, and only checks Expanding values, is a `contStable` move. -/
theorem contStable_set (m : List GraphNode) (a : Nat) (a2 : GraphNode)
    (hcl : a2.classification = (m.getD a defaultGraphNode).classification)
    (hnv : (m.getD a defaultGraphNode).value ≠ .NoValue →
      a2.value ≠ .NoValue)
    (hexp : nodeClass m a = .Expanding →
      (m.getD a defaultGraphNode).value ≠ .NoValue →
      (a2.value = (m.getD a defaultGraphNode).value ∨
        a2.value = .ErrorValue)) :
    contStable m (m.set a a2) := by
  by_cases ha : a < m.length
  · refine ⟨fun v => ?_, fun v hce hvn => ?_⟩
    · by_cases hva : v = a
      · subst hva
        rw [nodeClass_set_self _ _ _ ha, hcl]; rfl
      · rw [nodeClass_set_other _ _ _ _ hva]
    · by_cases hva : v = a
      · subst hva
        rw [nodeValue_set_self _ _ _ ha]
        exact ⟨hexp hce hvn, hnv hvn⟩
      · rw [nodeValue_set_other _ _ _ _ hva]
        exact ⟨Or.inl rfl, hvn⟩
  · rw [List.set_eq_of_length_le (Nat.le_of_not_lt ha)]
    exact contStable_refl m

/-- Writing back a node whose value is kept or errored is an `errOnly`
move. -/
theorem errOnly_set (m : List GraphNode) (a : Nat) (a2 : GraphNode)
    (hv : a2.value = (m.getD a defaultGraphNode).value ∨
      a2.value = .ErrorValue) :
    errOnly m (m.set a a2) := by
  intro v
  by_cases ha : a < m.length
  · by_cases hva : v = a
    · subst hva
      rw [nodeValue_set_self _ _ _ ha]
      exact hv
    · rw [nodeValue_set_other _ _ _ _ hva]
      exact Or.inl rfl
  · rw [List.set_eq_of_length_le (Nat.le_of_not_lt ha)]
    exact Or.inl rfl

/-- Any contraction step (changed or not) is a `contStable` move. -/
theorem contractionStep_stable (rm : RegionMaps) (m : List GraphNode)
    (c : Constraint) (m2 : List GraphNode) (ch : Bool)
    (h : contractionStep rm m c = some (m2, ch)) : contStable m m2 := by
  cases c with
  | ConstrainRegSubVar r b =>
    simp only [contractionStep, Option.some.injEq, Prod.mk.injEq] at h
    rw [← h.1]
    exact contStable_refl m
  | ConstrainRegSubReg r1 r2 =>
    simp only [contractionStep, Option.some.injEq, Prod.mk.injEq] at h
    rw [← h.1]
    exact contStable_refl m
  | ConstrainVarSubVar a b =>
    simp only [contractionStep] at h
    cases hv : (m.getD b defaultGraphNode).value with
    | NoValue =>
      rw [hv] at h
      simp only [Option.some.injEq, Prod.mk.injEq] at h
      rw [← h.1]
      exact contStable_refl m
    | ErrorValue =>
      rw [hv] at h
      simp only [Option.some.injEq, Prod.mk.injEq] at h
      rw [← h.1]
      exact contStable_refl m
    | Value br =>
      rw [hv] at h
      dsimp only at h
      cases hc : contract_node rm (m.getD a defaultGraphNode) br with
      | none => rw [hc] at h; cases h
      | some p =>
        obtain ⟨a2, ch2⟩ := p
        rw [hc] at h
        simp only [Option.some.injEq, Prod.mk.injEq] at h
        rw [← h.1]
        obtain ⟨h1, h2, h3⟩ := contract_node_classification rm _ br a2 ch2 hc
        exact contStable_set m a a2 h1 h2 h3
  | ConstrainVarSubReg a r =>
    simp only [contractionStep] at h
    cases hc : contract_node rm (m.getD a defaultGraphNode) r with
    | none => rw [hc] at h; cases h
    | some p =>
      obtain ⟨a2, ch2⟩ := p
      rw [hc] at h
      simp only [Option.some.injEq, Prod.mk.injEq] at h
      rw [← h.1]
      obtain ⟨h1, h2, h3⟩ := contract_node_classification rm _ r a2 ch2 hc
      exact contStable_set m a a2 h1 h2 h3

/-- A no-change contraction step only errors values and establishes the
contraction postcondition for its edge (given a coherent GLB oracle). -/
theorem contractionStep_false (rm : RegionMaps)
    (hglb : ∀ x y, glb_concrete_regions rm x y = some (.ok x) →
      rm.is_subregion_of x y = true)
    (m : List GraphNode) (c : Constraint) (m2 : List GraphNode)
    (h : contractionStep rm m c = some (m2, false)) :
    errOnly m m2 ∧ contPassPost rm m2 c := by
  cases c with
  | ConstrainRegSubVar r b =>
    simp only [contractionStep, Option.some.injEq, Prod.mk.injEq] at h
    rw [← h.1]
    exact ⟨errOnly_refl m, trivial⟩
  | ConstrainRegSubReg r1 r2 =>
    simp only [contractionStep, Option.some.injEq, Prod.mk.injEq] at h
    rw [← h.1]
    exact ⟨errOnly_refl m, trivial⟩
  | ConstrainVarSubVar a b =>
    simp only [contractionStep] at h
    cases hv : (m.getD b defaultGraphNode).value with
    | NoValue =>
      rw [hv] at h
      simp only [Option.some.injEq, Prod.mk.injEq] at h
      rw [← h.1]
      refine ⟨errOnly_refl m, fun ra rb h1 h2 => ?_⟩
      rw [nodeValue, hv] at h2
      cases h2
    | ErrorValue =>
      rw [hv] at h
      simp only [Option.some.injEq, Prod.mk.injEq] at h
      rw [← h.1]
      refine ⟨errOnly_refl m, fun ra rb h1 h2 => ?_⟩
      rw [nodeValue, hv] at h2
      cases h2
    | Value br =>
      rw [hv] at h
      dsimp only at h
      cases hc : contract_node rm (m.getD a defaultGraphNode) br with
      | none => rw [hc] at h; cases h
      | some p =>
        obtain ⟨a2, ch2⟩ := p
        rw [hc] at h
        simp only [Option.some.injEq, Prod.mk.injEq] at h
        obtain ⟨hm2, hch⟩ := h
        subst hch
        obtain ⟨h1, h2, h3⟩ := contract_node_false rm hglb _ br a2 hc
        have herr : errOnly m m2 := by
          rw [← hm2]; exact errOnly_set m a a2 h1
        have ha : a < m.length :=
          nodeValue_lt_length m a (by rw [nodeValue]; exact h2)
        refine ⟨herr, fun ra rb hva hvb => ?_⟩
        rw [← hm2, nodeValue_set_self _ _ _ ha] at hva
        have hrb : rb = br := by
          rcases herr b with hb | hb
          · rw [hvb] at hb
            rw [nodeValue, hv] at hb
            cases hb
            rfl
          · rw [hvb] at hb
            cases hb
        rw [hrb]
        exact h3 ra hva
  | ConstrainVarSubReg a r =>
    simp only [contractionStep] at h
    cases hc : contract_node rm (m.getD a defaultGraphNode) r with
    | none => rw [hc] at h; cases h
    | some p =>
      obtain ⟨a2, ch2⟩ := p
      rw [hc] at h
      simp only [Option.some.injEq, Prod.mk.injEq] at h
      obtain ⟨hm2, hch⟩ := h
      subst hch
      obtain ⟨h1, h2, h3⟩ := contract_node_false rm hglb _ r a2 hc
      have ha : a < m.length :=
        nodeValue_lt_length m a (by rw [nodeValue]; exact h2)
      refine ⟨by rw [← hm2]; exact errOnly_set m a a2 h1,
        fun ra hva => ?_⟩
      rw [← hm2, nodeValue_set_self _ _ _ ha] at hva
      exact h3 ra hva

/-- The contraction postcondition transfers along `errOnly`. -/
theorem contPassPost_mono (rm : RegionMaps) (m m2 : List GraphNode)
    (c : Constraint) (hM : errOnly m m2) (hp : contPassPost rm m c) :
    contPassPost rm m2 c := by
  cases c with
  | ConstrainVarSubVar a b =>
    intro ra rb hva hvb
    rcases hM a with ha | ha
    · rcases hM b with hb | hb
      · exact hp ra rb (ha ▸ hva) (hb ▸ hvb)
      · rw [hvb] at hb; cases hb
    · rw [hva] at ha; cases ha
  | ConstrainVarSubReg a r =>
    intro ra hva
    rcases hM a with ha | ha
    · exact hp ra (ha ▸ hva)
    · rw [hva] at ha; cases ha
  | ConstrainRegSubVar r b => trivial
  | ConstrainRegSubReg r1 r2 => trivial

/-! ## The constraint list carried by the solver graph -/

/-- Overwriting an edge with one holding the same constraint preserves
the constraint list. -/
theorem map_constraint_set (l : List GraphEdge) (i : Nat) (x : GraphEdge)
    (hx : x.constraint = (l.getD i defaultGraphEdge).constraint) :
    (l.set i x).map (fun e => e.constraint) =
      l.map (fun e => e.constraint) := by
  induction l generalizing i with
  | nil => rfl
  | cons e rest ih =>
    cases i with
    | zero =>
      have he : (e :: rest).getD 0 defaultGraphEdge = e := rfl
      rw [he] at hx
      simp [List.set, hx]
    | succ n =>
      have he : (e :: rest).getD (n + 1) defaultGraphEdge =
          rest.getD n defaultGraphEdge := rfl
      rw [he] at hx
      simp only [List.set, List.map_cons]
      rw [ih n hx]

/-- `insert_edge` rewires adjacency lists but keeps every edge's
constraint. -/
theorem insert_edge_constraints (g : Graph) (n : RegionVid) (d : Direction)
    (i : Nat) :
    (insert_edge g n d i).edges.map (fun e => e.constraint) =
      g.edges.map (fun e => e.constraint) := by
  unfold insert_edge
  dsimp only
  exact map_constraint_set _ _ _ rfl

/-- A fold of constraint-preserving graph steps preserves the constraint
list. -/
theorem graph_foldl_constraints (step : Graph → Nat → Graph)
    (hstep : ∀ g x, ((step g x).edges).map (fun e => e.constraint) =
      g.edges.map (fun e => e.constraint)) :
    ∀ (l : List Nat) (g : Graph),
      ((l.foldl step g).edges).map (fun e => e.constraint) =
        g.edges.map (fun e => e.constraint) := by
  intro l
  induction l with
  | nil => intro g; rfl
  | cons x rest ih =>
    intro g
    rw [List.foldl_cons, ih, hstep]

/-- The edges of the constructed graph carry exactly the stored
constraints, in order. -/
theorem construct_graph_constraints (s : RegionVarBindings) :
    (construct_graph s).edges.map (fun e => e.constraint) =
      alistKeys s.constraints := by
  unfold construct_graph
  dsimp only
  rw [graph_foldl_constraints]
  · rw [List.map_map]
    exact List.map_id _
  · intro g x
    dsimp only
    split
    · rw [insert_edge_constraints, insert_edge_constraints]
    · rw [insert_edge_constraints]
    · rw [insert_edge_constraints]
    · rfl

/-- `extract_values_and_collect_conflicts` returns the per-node values of
the graph it is given. -/
theorem extract_vals (rm : RegionMaps) (s : RegionVarBindings) (g : Graph)
    (fuel : Nat) (errs2 : List RegionResolutionError)
    (vals : List GraphNodeValue)
    (h : extract_values_and_collect_conflicts rm s g fuel =
      some (errs2, vals)) :
    vals = g.nodes.map (fun n => n.value) := by
  unfold extract_values_and_collect_conflicts at h
  dsimp only at h
  split at h
  · exact Option.noConfusion h
  · exact ((Prod.mk.injEq _ _ _ _).mp (Option.some.inj h)).2.symm

/-! ## Claim C1 -/

/-- C1 (amended): after a successful `resolve_regions`, and provided the
concrete LUB and GLB oracles cohere with the outlives relation
(`lub x y = y` implies `x <= y`, and `glb x y = x` implies `x <= y`),
every constraint is satisfied by the computed values in the following
sense: every variable endpoint that ended with a concrete `Value`
relates correctly, while endpoints left at `NoValue` or demoted to
`ErrorValue` impose nothing. -/
theorem C1_amended (rm : RegionMaps) (fuel : Nat) (s : RegionVarBindings)
    (errs : List RegionResolutionError) (s2 : RegionVarBindings)
    (vals : List GraphNodeValue)
    (hlub : ∀ x y, lub_concrete_regions rm x y = some y →
      rm.is_subregion_of x y = true)
    (hglb : ∀ x y, glb_concrete_regions rm x y = some (.ok x) →
      rm.is_subregion_of x y = true)
    (h : resolve_regions rm fuel s = some (errs, s2))
    (hv : s2.values = some vals) :
    ∀ c ∈ alistKeys s.constraints, satVals rm vals c := by
  unfold resolve_regions at h
  split at h
  · exact Option.noConfusion h
  cases hI : infer_variable_values rm fuel s with
  | none => rw [hI] at h; cases h
  | some p =>
    obtain ⟨errs0, vals0⟩ := p
    rw [hI] at h
    simp only [Option.some.injEq, Prod.mk.injEq] at h
    obtain ⟨heq, hs2⟩ := h
    have hv0 : vals0 = vals := by
      rw [← hs2] at hv
      exact Option.some.inj hv
    rw [hv0] at hI
    unfold infer_variable_values at hI
    dsimp only at hI
    cases hE : expansion rm
        ((construct_graph s).edges.map fun e => e.constraint) fuel
        (construct_graph s).nodes with
    | none => rw [hE] at hI; cases hI
    | some ns1 =>
      rw [hE] at hI
      dsimp only at hI
      cases hC : contraction rm
          ((construct_graph s).edges.map fun e => e.constraint) fuel ns1 with
      | none => rw [hC] at hI; cases hI
      | some ns2 =>
        rw [hC] at hI
        dsimp only at hI
        cases hX : extract_values_and_collect_conflicts rm s
            { construct_graph s with nodes := ns2 } fuel with
        | none => rw [hX] at hI; cases hI
        | some q =>
          obtain ⟨errs2, vals2⟩ := q
          rw [hX] at hI
          dsimp only at hI
          simp only [Option.some.injEq, Prod.mk.injEq] at hI
          have hvals : vals = ns2.map (fun n => n.value) := by
            rw [← hI.2]
            exact extract_vals rm s _ fuel errs2 vals2 hX
          unfold expansion at hE
          obtain ⟨preE, -, hlastE⟩ :=
            iterate_inv (expansionStep rm) _ (fun _ _ => True)
              (fun _ => trivial) (fun _ _ => trivial)
              (fun _ _ _ _ => trivial) fuel _ ns1 hE
          rw [runPass_eq_foldl] at hlastE
          obtain ⟨-, hPexp⟩ :=
            passBody_foldl_false_inv (expansionStep rm) expStable
              (expPassPost rm) expStable_refl
              (fun hx hy => expStable_trans hx hy)
              (fun m c m2 hs => expansionStep_false rm m c m2 hs)
              (fun m m2 c hM hp => expPassPost_mono rm m m2 c hM hp)
              _ preE ns1 hlastE
          unfold contraction at hC
          obtain ⟨preC, hQ1, hlastC⟩ :=
            iterate_inv (contractionStep rm) _ contStable contStable_refl
              (fun h1 h2 => contStable_trans h1 h2)
              (fun m out ch hp => by
                rw [runPass_eq_foldl] at hp
                exact passBody_foldl_rel (contractionStep rm) contStable
                  contStable_refl (fun a b => contStable_trans a b)
                  (fun m c m2 ch2 hs =>
                    contractionStep_stable rm m c m2 ch2 hs)
                  _ m false out ch hp)
              fuel ns1 ns2 hC
          rw [runPass_eq_foldl] at hlastC
          have hQ2 : contStable preC ns2 :=
            passBody_foldl_rel (contractionStep rm) contStable
              contStable_refl (fun a b => contStable_trans a b)
              (fun m c m2 ch2 hs => contractionStep_stable rm m c m2 ch2 hs)
              _ preC false ns2 false hlastC
          have hQ : contStable ns1 ns2 := contStable_trans hQ1 hQ2
          obtain ⟨-, hPcont⟩ :=
            passBody_foldl_false_inv (contractionStep rm) errOnly
              (contPassPost rm) errOnly_refl
              (fun a b => errOnly_trans a b)
              (fun m c m2 hs => contractionStep_false rm hglb m c m2 hs)
              (fun m m2 c hM hp => contPassPost_mono rm m m2 c hM hp)
              _ preC ns2 hlastC
          intro c hc
          rw [← construct_graph_constraints s] at hc
          cases c with
          | ConstrainVarSubVar a b =>
            intro ra rb h1 h2
            rw [hvals, mapValue_getD] at h1 h2
            exact hPcont _ hc ra rb h1 h2
          | ConstrainVarSubReg a r =>
            intro ra h1
            rw [hvals, mapValue_getD] at h1
            exact hPcont _ hc ra h1
          | ConstrainRegSubReg r1 r2 => trivial
          | ConstrainRegSubVar r b =>
            intro rb h2
            rw [hvals, mapValue_getD] at h2
            obtain ⟨hcore, hcls⟩ := hPexp _ hc
            rcases hcore with ⟨cur, hcur, hl⟩ | herr
            · have hblt : b < ns1.length :=
                nodeValue_lt_length _ _ (by rw [hcur]; simp)
              obtain ⟨hval2, -⟩ :=
                hQ.2 b (hcls hblt) (by rw [hcur]; simp)
              rcases hval2 with hsame | herr2
              · rw [hsame, hcur] at h2
                cases h2
                exact hlub r _ hl
              · rw [herr2] at h2
                cases h2
            · have hblt : b < ns1.length :=
                nodeValue_lt_length _ _ (by rw [herr]; simp)
              obtain ⟨hval2, -⟩ :=
                hQ.2 b (hcls hblt) (by rw [herr]; simp)
              rcases hval2 with hsame | herr2
              · rw [hsame, herr] at h2
                cases h2
              · rw [herr2] at h2
                cases h2

/-- C1 (counterexample to the claim as stated): solving `$0 <= $1`,
`$0 <= static` under `rmSmall` succeeds with no reported error and no
`ErrorValue`, yet the computed value of `$0` (`re_static`) does not
satisfy `$0 <= $1` because `$1` was never constrained and resolves to
`re_empty`.  The claim's only stated exception (ErrorValue variables
already reported as errors) does not cover this violation. -/
theorem C1_counterexample :
    resolve_regions rmSmall 10 storeUpperOnly =
      some ([], storeUpperSolved) ∧
    (Constraint.ConstrainVarSubVar 0 1, 5) ∈ storeUpperOnly.constraints ∧
    storeUpperSolved.resolve_var 0 = some Region.re_static ∧
    storeUpperSolved.resolve_var 1 = some Region.re_empty ∧
    ¬ satResolved rmSmall storeUpperSolved
        (Constraint.ConstrainVarSubVar 0 1) := by
  refine ⟨by decide, by decide, by decide, by decide, fun hsat => ?_⟩
  have hr := hsat Region.re_static Region.re_empty (by decide) (by decide)
  exact absurd hr (by decide)

/-- C1 (witness): the amended theorem applied to solving the single
lower-bound constraint `Scope(3) <= $0` under the trivially coherent
total oracle. -/
theorem C1_amended_witness :
    satVals rmTotal [GraphNodeValue.Value Region.re_static]
      (Constraint.ConstrainRegSubVar (Region.re_scope 3) 0) :=
  C1_amended rmTotal 10 storeLowerOnly []
    { storeLowerOnly with
      values := some [GraphNodeValue.Value Region.re_static] }
    [GraphNodeValue.Value Region.re_static]
    (fun _ _ _ => rfl) (fun _ _ _ => rfl)
    (by decide) rfl
    (Constraint.ConstrainRegSubVar (Region.re_scope 3) 0) (by decide)

/-! ## Claim C7: concrete-failure characterization -/

/-- `collect_concrete_region_errors` is the fold of `concreteBody`. -/
theorem collect_concrete_eq (rm : RegionMaps) (s : RegionVarBindings)
    (g : Graph) :
    collect_concrete_region_errors rm s g =
      g.edges.foldl (concreteBody rm s) [] := rfl

/-- The concrete-error fold is a `filterMap` over the edge
constraints. -/
theorem concreteBody_foldl (rm : RegionMaps) (s : RegionVarBindings) :
    ∀ (edges : List GraphEdge) (init : List RegionResolutionError),
      edges.foldl (concreteBody rm s) init =
        init ++ (edges.map (fun e => e.constraint)).filterMap
          (concreteError rm s) := by
  intro edges
  induction edges with
  | nil => intro init; simp
  | cons e rest ih =>
    intro init
    rw [List.foldl_cons, ih, List.map_cons, List.filterMap_cons]
    cases hc : e.constraint with
    | ConstrainRegSubReg sub sup =>
      cases hs : rm.is_subregion_of sub sup with
      | true => simp [concreteBody, concreteError, hc, hs]
      | false => simp [concreteBody, concreteError, hc, hs]
    | ConstrainVarSubVar a b => simp [concreteBody, concreteError, hc]
    | ConstrainRegSubVar r b => simp [concreteBody, concreteError, hc]
    | ConstrainVarSubReg a r => simp [concreteBody, concreteError, hc]

/-- Exactly which constraints contribute a given `ConcreteFailure`. -/
theorem concreteError_eq_CF (rm : RegionMaps) (s : RegionVarBindings)
    (c : Constraint) (o : SubregionOrigin) (sub sup : Region) :
    concreteError rm s c =
        some (RegionResolutionError.ConcreteFailure o sub sup) ↔
      (c = .ConstrainRegSubReg sub sup ∧
        rm.is_subregion_of sub sup = false ∧
        o = lookupOrigin s.constraints (.ConstrainRegSubReg sub sup)) := by
  cases c with
  | ConstrainRegSubReg sub2 sup2 =>
    constructor
    · intro h
      simp only [concreteError] at h
      split at h
      · exact Option.noConfusion h
      · rename_i hs
        have h2 := Option.some.inj h
        injection h2 with ho hsub hsup
        subst hsub
        subst hsup
        subst ho
        exact ⟨rfl, Bool.not_eq_true _ ▸ hs, rfl⟩
    · rintro ⟨hc, hsub, ho⟩
      injection hc with h1 h2
      subst h1
      subst h2
      subst ho
      simp [concreteError, hsub]
  | ConstrainVarSubVar a b => simp [concreteError]
  | ConstrainRegSubVar r b => simp [concreteError]
  | ConstrainVarSubReg a r => simp [concreteError]

/-- A key present in an association list has a findable binding. -/
theorem alistLookup_mem_of_key {α β : Type} [DecidableEq α]
    (m : List (α × β)) (k : α) (hk : k ∈ alistKeys m) :
    ∃ v, alistLookup m k = some v ∧ (k, v) ∈ m := by
  induction m with
  | nil => simp [alistKeys] at hk
  | cons p rest ih =>
    by_cases hpk : p.1 = k
    · refine ⟨p.2, by simp [alistLookup, hpk], ?_⟩
      exact List.mem_cons.mpr (Or.inl (by rw [← hpk]))
    · have hk2 : k ∈ alistKeys rest := by
        rcases List.mem_cons.mp hk with h1 | h2
        · exact absurd h1.symm hpk
        · exact h2
      obtain ⟨v, hl, hm⟩ := ih hk2
      exact ⟨v, by simp [alistLookup, hpk, hl],
        List.mem_cons.mpr (Or.inr hm)⟩

/-- Under distinct keys, lookup recovers any stored binding. -/
theorem alistLookup_of_mem_nodup {α β : Type} [DecidableEq α]
    (m : List (α × β)) (k : α) (v : β) (hnd : (alistKeys m).Nodup)
    (hm : (k, v) ∈ m) : alistLookup m k = some v := by
  induction m with
  | nil => cases hm
  | cons p rest ih =>
    rcases List.mem_cons.mp hm with heq | hmem
    · rw [← heq]
      simp [alistLookup]
    · have hpk : p.1 ≠ k := by
        intro he
        have hk : k ∈ alistKeys rest :=
          List.mem_map.mpr ⟨(k, v), hmem, rfl⟩
        have hhead : p.1 ∉ alistKeys rest := (List.nodup_cons.mp hnd).1
        rw [he] at hhead
        exact hhead hk
      simp only [alistLookup, if_neg hpk]
      exact ih (List.nodup_cons.mp hnd).2 hmem

/-- `findSome?` succeeds only through some element of the list. -/
theorem findSome?_some {α β : Type} (f : α → Option β) (b : β) :
    ∀ l : List α, l.findSome? f = some b → ∃ a, a ∈ l ∧ f a = some b := by
  intro l
  induction l with
  | nil => intro h; cases h
  | cons a rest ih =>
    intro h
    rw [List.findSome?_cons] at h
    cases hfa : f a with
    | some c =>
      rw [hfa] at h
      exact ⟨a, List.mem_cons_self a rest, hfa.trans h⟩
    | none =>
      rw [hfa] at h
      obtain ⟨x, hx, hfx⟩ := ih h
      exact ⟨x, List.mem_cons_of_mem a hx, hfx⟩

/-- The expanding-node collector only ever emits `SubSupConflict`. -/
theorem expanding_node_no_concrete (rm : RegionMaps)
    (s : RegionVarBindings) (g : Graph) (dv : List (Option RegionVid))
    (idx : RegionVid) (fuel : Nat) (es : List RegionResolutionError)
    (dv2 : List (Option RegionVid))
    (h : collect_error_for_expanding_node rm s g dv idx fuel =
      some (es, dv2)) :
    ∀ o sub sup, RegionResolutionError.ConcreteFailure o sub sup ∉ es := by
  unfold collect_error_for_expanding_node at h
  split at h
  · exact Option.noConfusion h
  · split at h
    · exact Option.noConfusion h
    · split at h
      · have he := congrArg Prod.fst (Option.some.inj h)
        dsimp only at he
        subst he
        intro o sub sup hmem
        cases hmem
      · split at h
        · rename_i e hfind
          have he := congrArg Prod.fst (Option.some.inj h)
          dsimp only at he
          subst he
          obtain ⟨lb, -, hlb⟩ := findSome?_some _ _ _ hfind
          obtain ⟨ub, -, hub⟩ := findSome?_some _ _ _ hlb
          intro o sub sup hmem
          rcases List.mem_singleton.mp hmem with rfl
          split at hub
          · exact Option.noConfusion hub
          · exact RegionResolutionError.noConfusion (Option.some.inj hub)
        · exact Option.noConfusion h

/-- The contracting-node collector only ever emits `SupSupConflict`. -/
theorem contracting_node_no_concrete (rm : RegionMaps)
    (s : RegionVarBindings) (g : Graph) (dv : List (Option RegionVid))
    (idx : RegionVid) (fuel : Nat) (es : List RegionResolutionError)
    (dv2 : List (Option RegionVid))
    (h : collect_error_for_contracting_node rm s g dv idx fuel =
      some (es, dv2)) :
    ∀ o sub sup, RegionResolutionError.ConcreteFailure o sub sup ∉ es := by
  unfold collect_error_for_contracting_node at h
  split at h
  · exact Option.noConfusion h
  · split at h
    · have he := congrArg Prod.fst (Option.some.inj h)
      dsimp only at he
      subst he
      intro o sub sup hmem
      cases hmem
    · split at h
      · rename_i e hfind
        have he := congrArg Prod.fst (Option.some.inj h)
        dsimp only at he
        subst he
        obtain ⟨ub1, -, hub1⟩ := findSome?_some _ _ _ hfind
        obtain ⟨ub2, -, hub2⟩ := findSome?_some _ _ _ hub1
        intro o sub sup hmem
        rcases List.mem_singleton.mp hmem with rfl
        split at hub2
        · exact Option.noConfusion (Option.some.inj hub2)
        · exact Option.noConfusion hub2
        · exact RegionResolutionError.noConfusion
            (Option.some.inj (Option.some.inj hub2))
      · exact Option.noConfusion h
      · exact Option.noConfusion h

/-- Folding the extraction body over a dead accumulator stays dead. -/
theorem extractBody_foldl_none (rm : RegionMaps) (s : RegionVarBindings)
    (g : Graph) (fuel : Nat) :
    ∀ l : List (Nat × GraphNode),
      l.foldl (extractBody rm s g fuel) none = none := by
  intro l
  induction l with
  | nil => rfl
  | cons p rest ih => exact ih

/-- The extraction fold never introduces a `ConcreteFailure`. -/
theorem extract_fold_no_concrete (rm : RegionMaps) (s : RegionVarBindings)
    (g : Graph) (fuel : Nat) :
    ∀ (l : List (Nat × GraphNode)) (accE : List RegionResolutionError)
      (accD : List (Option RegionVid))
      (out : List RegionResolutionError × List (Option RegionVid)),
      l.foldl (extractBody rm s g fuel) (some (accE, accD)) = some out →
      (∀ o sub sup,
        RegionResolutionError.ConcreteFailure o sub sup ∉ accE) →
      ∀ o sub sup,
        RegionResolutionError.ConcreteFailure o sub sup ∉ out.1 := by
  intro l
  induction l with
  | nil =>
    intro accE accD out h hacc
    have he := Option.some.inj h
    rw [← he]
    exact hacc
  | cons p rest ih =>
    intro accE accD out h hacc
    rw [List.foldl_cons] at h
    cases hv : p.2.value with
    | Value r =>
      rw [show extractBody rm s g fuel (some (accE, accD)) p =
        some (accE, accD) from by simp [extractBody, hv]] at h
      exact ih accE accD out h hacc
    | NoValue =>
      rw [show extractBody rm s g fuel (some (accE, accD)) p =
        some (accE, accD) from by simp [extractBody, hv]] at h
      exact ih accE accD out h hacc
    | ErrorValue =>
      cases hcl : p.2.classification with
      | Expanding =>
        cases hce : collect_error_for_expanding_node rm s g accD p.1
            fuel with
        | none =>
          rw [show extractBody rm s g fuel (some (accE, accD)) p =
            none from by simp [extractBody, hv, hcl, hce]] at h
          rw [extractBody_foldl_none] at h
          cases h
        | some q =>
          obtain ⟨es, dv2⟩ := q
          rw [show extractBody rm s g fuel (some (accE, accD)) p =
            some (accE ++ es, dv2) from by
              simp [extractBody, hv, hcl, hce]] at h
          refine ih (accE ++ es) dv2 out h ?_
          intro o sub sup hmem
          rcases List.mem_append.mp hmem with h1 | h2
          · exact hacc o sub sup h1
          · exact expanding_node_no_concrete rm s g accD p.1 fuel es dv2
              hce o sub sup h2
      | Contracting =>
        cases hce : collect_error_for_contracting_node rm s g accD p.1
            fuel with
        | none =>
          rw [show extractBody rm s g fuel (some (accE, accD)) p =
            none from by simp [extractBody, hv, hcl, hce]] at h
          rw [extractBody_foldl_none] at h
          cases h
        | some q =>
          obtain ⟨es, dv2⟩ := q
          rw [show extractBody rm s g fuel (some (accE, accD)) p =
            some (accE ++ es, dv2) from by
              simp [extractBody, hv, hcl, hce]] at h
          refine ih (accE ++ es) dv2 out h ?_
          intro o sub sup hmem
          rcases List.mem_append.mp hmem with h1 | h2
          · exact hacc o sub sup h1
          · exact contracting_node_no_concrete rm s g accD p.1 fuel es
              dv2 hce o sub sup h2

/-- `extract_values_and_collect_conflicts` reports no
`ConcreteFailure`. -/
theorem extract_no_concrete (rm : RegionMaps) (s : RegionVarBindings)
    (g : Graph) (fuel : Nat) (errs2 : List RegionResolutionError)
    (vals : List GraphNodeValue)
    (h : extract_values_and_collect_conflicts rm s g fuel =
      some (errs2, vals)) :
    ∀ o sub sup,
      RegionResolutionError.ConcreteFailure o sub sup ∉ errs2 := by
  have hEq : extract_values_and_collect_conflicts rm s g fuel =
      (match g.nodes.enum.foldl (extractBody rm s g fuel)
          (some ([], g.nodes.map (fun _ => none))) with
        | none => none
        | some (errs, _) =>
          some (errs, g.nodes.map (fun n => n.value))) := rfl
  rw [hEq] at h
  split at h
  · exact Option.noConfusion h
  · rename_i errs3 dv hfold
    have he := congrArg Prod.fst (Option.some.inj h)
    dsimp only at he
    have hno := extract_fold_no_concrete rm s g fuel _ [] _ _ hfold
      (fun o sub sup hmem => (List.not_mem_nil _ hmem))
    intro o sub sup
    rw [← he]
    exact hno o sub sup

/-- A `filterMap` produces a value at most as often as its unique
preimage occurs. -/
theorem count_filterMap_le {α β : Type} [DecidableEq α] [DecidableEq β]
    (f : α → Option β) (y : β) (x0 : α)
    (hf : ∀ a, f a = some y → a = x0) :
    ∀ l : List α, (l.filterMap f).count y ≤ l.count x0 := by
  intro l
  induction l with
  | nil => simp
  | cons a rest ih =>
    rw [List.filterMap_cons]
    cases hfa : f a with
    | none =>
      rw [List.count_cons]
      exact le_trans ih (Nat.le_add_right _ _)
    | some b =>
      rw [List.count_cons, List.count_cons]
      by_cases hby : b = y
      · subst hby
        have ha := hf a hfa
        subst ha
        simp only [beq_self_eq_true, if_true]
        exact Nat.add_le_add_right ih 1
      · have hbne : (b == y) = false := beq_eq_false_iff_ne.mpr hby
        simp only [hbne, if_false, Nat.add_zero]
        exact le_trans ih (Nat.le_add_right _ _)

/-- A successful `resolve_regions` splits its error list into the
concrete-conflict errors and the per-variable extraction errors. -/
theorem resolve_regions_errs (rm : RegionMaps) (fuel : Nat)
    (s : RegionVarBindings) (errs : List RegionResolutionError)
    (s2 : RegionVarBindings)
    (h : resolve_regions rm fuel s = some (errs, s2)) :
    ∃ ns2 errs2 vals,
      errs = collect_concrete_region_errors rm s
          { construct_graph s with nodes := ns2 } ++ errs2 ∧
      extract_values_and_collect_conflicts rm s
          { construct_graph s with nodes := ns2 } fuel =
        some (errs2, vals) := by
  unfold resolve_regions at h
  split at h
  · exact Option.noConfusion h
  cases hI : infer_variable_values rm fuel s with
  | none => rw [hI] at h; cases h
  | some p =>
    obtain ⟨errs0, vals0⟩ := p
    rw [hI] at h
    simp only [Option.some.injEq, Prod.mk.injEq] at h
    obtain ⟨heq, hs2⟩ := h
    unfold infer_variable_values at hI
    dsimp only at hI
    cases hE : expansion rm
        ((construct_graph s).edges.map fun e => e.constraint) fuel
        (construct_graph s).nodes with
    | none => rw [hE] at hI; cases hI
    | some ns1 =>
      rw [hE] at hI
      dsimp only at hI
      cases hC : contraction rm
          ((construct_graph s).edges.map fun e => e.constraint) fuel
          ns1 with
      | none => rw [hC] at hI; cases hI
      | some ns2 =>
        rw [hC] at hI
        dsimp only at hI
        cases hX : extract_values_and_collect_conflicts rm s
            { construct_graph s with nodes := ns2 } fuel with
        | none => rw [hX] at hI; cases hI
        | some q =>
          obtain ⟨errs2, vals2⟩ := q
          rw [hX] at hI
          dsimp only at hI
          simp only [Option.some.injEq, Prod.mk.injEq] at hI
          exact ⟨ns2, errs2, vals2, by rw [← heq, ← hI.1], hX⟩

/-- C7: after a successful `resolve_regions`, a
`ConcreteFailure(o, sub, sup)` record is present exactly when the store
holds the constraint `RegSubReg(sub, sup)` with origin `o` and the
outlives relation `sub <= sup` fails; moreover each such record appears
at most once (the membership direction supplies at least once). -/
theorem C7_concrete_failures (rm : RegionMaps) (fuel : Nat)
    (s : RegionVarBindings) (errs : List RegionResolutionError)
    (s2 : RegionVarBindings)
    (hnodup : (alistKeys s.constraints).Nodup)
    (h : resolve_regions rm fuel s = some (errs, s2))
    (o : SubregionOrigin) (sub sup : Region) :
    (RegionResolutionError.ConcreteFailure o sub sup ∈ errs ↔
      ((Constraint.ConstrainRegSubReg sub sup, o) ∈ s.constraints ∧
        rm.is_subregion_of sub sup = false)) ∧
    errs.count (RegionResolutionError.ConcreteFailure o sub sup) ≤ 1 := by
  obtain ⟨ns2, errs2, vals, herrs, hX⟩ :=
    resolve_regions_errs rm fuel s errs s2 h
  have hno2 := extract_no_concrete rm s _ fuel errs2 vals hX
  have hc1 : collect_concrete_region_errors rm s
      { construct_graph s with nodes := ns2 } =
      (alistKeys s.constraints).filterMap (concreteError rm s) := by
    rw [collect_concrete_eq, concreteBody_foldl, List.nil_append]
    have hedges :
        ({ construct_graph s with nodes := ns2 } : Graph).edges.map
          (fun e => e.constraint) = alistKeys s.constraints :=
      construct_graph_constraints s
    rw [hedges]
  constructor
  · rw [herrs, List.mem_append]
    constructor
    · rintro (h1 | h2)
      · rw [hc1] at h1
        obtain ⟨c, hcmem, hcf⟩ := List.mem_filterMap.mp h1
        obtain ⟨hceq, hsub, ho⟩ :=
          (concreteError_eq_CF rm s c o sub sup).mp hcf
        subst hceq
        obtain ⟨v, hl, hm⟩ :=
          alistLookup_mem_of_key s.constraints _ hcmem
        have hov : o = v := by
          rw [ho]
          unfold lookupOrigin
          rw [hl]
          rfl
        exact ⟨by rw [hov]; exact hm, hsub⟩
      · exact absurd h2 (hno2 o sub sup)
    · rintro ⟨hm, hsub⟩
      left
      rw [hc1]
      refine List.mem_filterMap.mpr ⟨.ConstrainRegSubReg sub sup, ?_, ?_⟩
      · exact List.mem_map.mpr
          ⟨(.ConstrainRegSubReg sub sup, o), hm, rfl⟩
      · refine (concreteError_eq_CF rm s _ o sub sup).mpr
          ⟨rfl, hsub, ?_⟩
        unfold lookupOrigin
        rw [alistLookup_of_mem_nodup s.constraints _ o hnodup hm]
        rfl
  · rw [herrs, List.count_append]
    have h2z : errs2.count
        (RegionResolutionError.ConcreteFailure o sub sup) = 0 :=
      List.count_eq_zero.mpr (hno2 o sub sup)
    rw [h2z, Nat.add_zero, hc1]
    have hle := count_filterMap_le (concreteError rm s)
      (RegionResolutionError.ConcreteFailure o sub sup)
      (Constraint.ConstrainRegSubReg sub sup)
      (fun a ha => ((concreteError_eq_CF rm s a o sub sup).mp ha).1)
      (alistKeys s.constraints)
    exact le_trans hle (List.nodup_iff_count_le_one.mp hnodup _)

/-- C7 (witness): the single failing concrete constraint
`static <= empty` of `storeConcrete` yields its `ConcreteFailure`
record. -/
theorem C7_witness :
    RegionResolutionError.ConcreteFailure 7 Region.re_static
        Region.re_empty ∈
      [RegionResolutionError.ConcreteFailure 7 Region.re_static
        Region.re_empty] :=
  (C7_concrete_failures rmSmall 10 storeConcrete
      [RegionResolutionError.ConcreteFailure 7 Region.re_static
        Region.re_empty]
      { storeConcrete with values := some [] }
      (by decide) (by decide) 7 Region.re_static Region.re_empty).1.mpr
    ⟨by decide, by decide⟩

end RegionInference
